import Mathlib

/-!
Verification development for the vuei18n-extractor repository.

The definitions below are a shallow embedding, into Lean, of the JavaScript
source of the repository: the security helpers (`escapeString`,
`isValidVariableName`), the message classifier (`extractVariables`,
`hasPluralization`, `hasDateFormatting`, `validateMessageFormat`), the key
extractor (`extractFromCode`, `mergeKeys`), the catalog generator
(`generateJS` and its grouping helpers), the namespace sanitizer
(`sanitizeNamespace`, `generateFromDirectory`) and the migration merge step
of the orchestrator.

Modelling conventions:
- JavaScript strings are Lean `String`s, processed as their `List Char` of
  code points (JS `.length` counts UTF-16 units; for the code points in
  play here the two agree, and the embedding uses code-point counting).
- A JS `Map`/object keyed by strings is an insertion-ordered list; `set` on
  an existing key replaces the value in place, otherwise appends.
- `Array.prototype.sort()` on strings and the `localeCompare` comparator
  are both modelled by the lexicographic order on `String` (a fixed total
  order, which is all the determinism arguments rely on); the stable JS
  sort is modelled by `List.insertionSort`, which is stable.
- Regexes are hand-compiled to scanners over `List Char`; scanners whose
  recursion is not structural take an explicit fuel argument, supplied as
  the length of the scanned list (each step consumes at least one
  character, so that fuel is always sufficient).
-/

namespace VueI18n

/-! ### Character constants and classes -/

def lbraceChar : Char := Char.ofNat 123

def rbraceChar : Char := Char.ofNat 125

def backslashChar : Char := Char.ofNat 92

def dquoteChar : Char := Char.ofNat 34

def squoteChar : Char := Char.ofNat 39

def backtickChar : Char := Char.ofNat 96

def lbracketChar : Char := Char.ofNat 91

def rbracketChar : Char := Char.ofNat 93

def lparenChar : Char := Char.ofNat 40

def rparenChar : Char := Char.ofNat 41

def dollarChar : Char := Char.ofNat 36

def newlineChar : Char := Char.ofNat 10

def crChar : Char := Char.ofNat 13

def tabChar : Char := Char.ofNat 9

def commaChar : Char := Char.ofNat 44

/-- Character class of the JS regex `\s` (whitespace), restricted to the
code points JS recognises. -/
def jsWs (c : Char) : Bool :=
  c.toNat = 32 || (9 ≤ c.toNat && c.toNat ≤ 13) || c.toNat = 160 ||
  c.toNat = 5760 || (8192 ≤ c.toNat && c.toNat ≤ 8202) || c.toNat = 8232 ||
  c.toNat = 8233 || c.toNat = 8239 || c.toNat = 8287 || c.toNat = 12288 ||
  c.toNat = 65279

/-- Character class of the JS regex `\w`: `[A-Za-z0-9_]`. -/
def isWordChar (c : Char) : Bool :=
  c.isAlpha || c.isDigit || c = '_'

/-- Leading character of the identifier class `[a-zA-Z_$]`. -/
def isIdentStart (c : Char) : Bool :=
  c.isAlpha || c = '_' || c = dollarChar

/-- Continuation character of the identifier class `[a-zA-Z0-9_$]`. -/
def isIdentCont (c : Char) : Bool :=
  isIdentStart c || c.isDigit

/-! ### security.js -/

/-- Embeds `isValidVariableName` (security.js): test of
`/^[a-zA-Z_$][a-zA-Z0-9_$]*$/`. -/
def isValidVariableName (varName : String) : Bool :=
  match varName.toList with
  | [] => false
  | c :: cs => isIdentStart c && cs.all isIdentCont

/-- Global replacement of one character by a string of characters, the
semantics of `.replace(/c/g, r)` for a single-character pattern. -/
def replaceAll (c : Char) (r : List Char) : List Char → List Char
  | [] => []
  | a :: as => (if a = c then r else [a]) ++ replaceAll c r as

/-- Character class stripped by the final stage of `escapeString`:
`[\x00-\x1F\x7F]`. -/
def isStrippedControl (c : Char) : Bool :=
  c.toNat < 32 || c.toNat = 127

/-- Embeds `escapeString` (security.js): the chain of global replaces
backslash, double quote, single quote, newline, carriage return, tab,
then removal of the remaining control characters. -/
def escapeList (cs : List Char) : List Char :=
  ((((((replaceAll backslashChar [backslashChar, backslashChar] cs
    |> replaceAll dquoteChar [backslashChar, dquoteChar])
    |> replaceAll squoteChar [backslashChar, squoteChar])
    |> replaceAll newlineChar [backslashChar, 'n'])
    |> replaceAll crChar [backslashChar, 'r'])
    |> replaceAll tabChar [backslashChar, 't'])
    |>.filter (fun c => !isStrippedControl c))

def escapeString (str : String) : String :=
  String.mk (escapeList str.toList)

/-- Spec-side description of the escaping (claim C9 / spec §4.4): what each
single character must become. -/
def specEscapeChar (c : Char) : List Char :=
  if c = backslashChar then [backslashChar, backslashChar]
  else if c = dquoteChar then [backslashChar, dquoteChar]
  else if c = squoteChar then [backslashChar, squoteChar]
  else if c = newlineChar then [backslashChar, 'n']
  else if c = crChar then [backslashChar, 'r']
  else if c = tabChar then [backslashChar, 't']
  else if isStrippedControl c then []
  else [c]

/-- Scanner deciding that a character list contains no unescaped double
quote: reading left to right, every double quote is consumed by a
preceding backslash. -/
def noUnescapedQuote : List Char → Bool
  | [] => true
  | [c] => c ≠ dquoteChar
  | c :: d :: rest =>
    if c = backslashChar then noUnescapedQuote rest
    else if c = dquoteChar then false
    else noUnescapedQuote (d :: rest)

/-! ### Ordering helpers -/

/-- Decidability of the string order through the character-list order, so
that sorting evaluates by kernel reduction on concrete catalogs. -/
def decStrLe (a b : String) : Decidable (a ≤ b) :=
  decidable_of_iff (a.toList ≤ b.toList) String.le_iff_toList_le.symm

/-- JS `Array.prototype.sort()` on strings, modelled by the lexicographic
order (stable sort). -/
def sortStrings (l : List String) : List String :=
  @List.insertionSort String (fun a b => a ≤ b) (fun a b => decStrLe a b) l

/-- First-occurrence deduplication with an explicit seen set: the order a
JS `Set` built from a list iterates in. -/
def dedupKeep (seen : List String) : List String → List String
  | [] => []
  | x :: xs => if x ∈ seen then dedupKeep seen xs else x :: dedupKeep (x :: seen) xs

/-- Semantics of `[...new Set(l)]`. -/
def dedupFirst (l : List String) : List String :=
  dedupKeep [] l

/-! ### message-parser.js -/

/-- Attempt, on the characters following a `{`, to match
`[a-zA-Z_$][a-zA-Z0-9_$]*\}` greedily: returns the identifier and the
characters after the closing brace. -/
def matchVarAt (cs : List Char) : Option (String × List Char) :=
  match cs with
  | [] => none
  | d :: rest =>
    if isIdentStart d then
      let run := rest.takeWhile isIdentCont
      let after := rest.drop run.length
      match after with
      | b :: rest2 => if b = rbraceChar then some (String.mk (d :: run), rest2) else none
      | [] => none
    else none

/-- Scanner for `/\{([a-zA-Z_$][a-zA-Z0-9_$]*)\}/g` as `exec` in a loop
runs it: leftmost matches, continuing after each match. Fuel is consumed
one unit per step; `rawVariableMatches` supplies the list length, which is
always sufficient. -/
def rawVarGo (fuel : Nat) (cs : List Char) : List String :=
  match fuel, cs with
  | 0, _ => []
  | _ + 1, [] => []
  | f + 1, c :: rest =>
    if c = lbraceChar then
      match matchVarAt rest with
      | some (name, rest2) => name :: rawVarGo f rest2
      | none => rawVarGo f rest
    else rawVarGo f rest

def rawVariableMatches (cs : List Char) : List String :=
  rawVarGo cs.length cs

/-- Embeds `extractVariables` (message-parser.js): the exec loop collecting
each matched name once, guarded by `isValidVariableName`. -/
def extractVariables (text : String) : List String :=
  (rawVariableMatches text.toList).foldl
    (fun vars varName =>
      if isValidVariableName varName ∧ varName ∉ vars then vars ++ [varName]
      else vars) []

/-- Spec-side token collector for claim C6: at every position of the text
(no skipping), the brace-delimited identifier token starting there, if
any. -/
def specTokens : List Char → List String
  | [] => []
  | c :: rest =>
    (if c = lbraceChar then ((matchVarAt rest).map Prod.fst).toList else []) ++ specTokens rest

/-- Spec-side variable list: the distinct tokens in first-occurrence
order. -/
def specVariables (text : String) : List String :=
  dedupFirst (specTokens text.toList)

/-- Matcher for `\s*\w+\s*,\s*(tag variants)\s*,` at the position right
after an opening brace, shared by the plural and date scanners. -/
def matchIcuTagAfterBrace (tags : List (List Char)) (rest : List Char) : Bool :=
  let r1 := rest.dropWhile jsWs
  let w := r1.takeWhile isWordChar
  if w.isEmpty then false
  else
    match (r1.drop w.length).dropWhile jsWs with
    | c2 :: r3 =>
      if c2 = commaChar then
        let r4 := r3.dropWhile jsWs
        tags.any (fun t =>
          t.isPrefixOf r4 &&
            match (r4.drop t.length).dropWhile jsWs with
            | c3 :: _ => decide (c3 = commaChar)
            | [] => false)
      else false
    | [] => false

/-- Search the whole text for `\{` followed by `matchIcuTagAfterBrace`. -/
def icuTagSearch (tags : List (List Char)) : List Char → Bool
  | [] => false
  | c :: rest =>
    (c = lbraceChar && matchIcuTagAfterBrace tags rest) || icuTagSearch tags rest

def pluralTagChars : List Char := 'p' :: 'l' :: 'u' :: 'r' :: 'a' :: 'l' :: []

def dateTagChars : List Char := 'd' :: 'a' :: 't' :: 'e' :: []

def timeTagChars : List Char := 't' :: 'i' :: 'm' :: 'e' :: []

/-- Embeds `hasPluralization` (message-parser.js): test of
`/\{\s*\w+\s*,\s*plural\s*,/`. -/
def hasPluralization (text : String) : Bool :=
  icuTagSearch [pluralTagChars] text.toList

/-- Embeds `hasDateFormatting` (message-parser.js): test of
`/\{\s*\w+\s*,\s*(date|time)\s*,/`. -/
def hasDateFormatting (text : String) : Bool :=
  icuTagSearch [dateTagChars, timeTagChars] text.toList

/-- Example message whose plural-tag token is an identifier with a dollar
sign: the text between braces is `$x, plural, y`. -/
def pluralDollarExample : String :=
  String.singleton lbraceChar ++ "$x, plural, y" ++ String.singleton rbraceChar

/-- Example message with an unbalanced opening brace. -/
def unbalancedExample : String :=
  "a" ++ String.singleton lbraceChar ++ "b"

/-- Running brace counter of `validateMessageFormat`: `none` when the count
goes negative at some point, otherwise the final count. -/
def braceScan : List Char → Int → Option Int
  | [], n => some n
  | c :: cs, n =>
    let n2 : Int := if c = lbraceChar then n + 1 else if c = rbraceChar then n - 1 else n
    if n2 < 0 then none else braceScan cs n2

/-- Brace depth of a character list (the net count of `{` minus `}`). -/
def braceDepth (cs : List Char) : Int :=
  cs.foldl (fun n c => if c = lbraceChar then n + 1 else if c = rbraceChar then n - 1 else n) 0

/-- Embeds `validateMessageFormat` (message-parser.js). The JS function
throws; the embedding returns the thrown message in `Except.error`. The
`typeof message !== "string"` guard cannot fire in the typed embedding and
is omitted. -/
def validateMessageFormat (message : String) : Except String Unit :=
  if message.length > 5000 then .error "Message too long (max 5000 characters)"
  else
    match braceScan message.toList 0 with
    | none => .error "Unbalanced braces in message"
    | some n =>
      if n ≠ 0 then .error "Unbalanced braces in message"
      else
        match (extractVariables message).find? (fun v => !isValidVariableName v) with
        | some v => .error ("Invalid variable name: " ++ v)
        | none => .ok ()

/-- Spec-side failure condition of claim C4: the running curly-brace depth
goes negative at some prefix, or is nonzero at the end. Prefixes of the
character list are its `take n` initial segments. -/
def braceViolation (message : String) : Prop :=
  (∃ n ∈ List.range (message.toList.length + 1), braceDepth (message.toList.take n) < 0) ∨
    braceDepth message.toList ≠ 0

instance (message : String) : Decidable (braceViolation message) := by
  unfold braceViolation; infer_instance

/-! ### key-extractor.js -/

/-- The record an extracted call produces (types.js / key-extractor.js).
`namespace` and `variables` are Lean keywords, so those fields are called
`ns` and `vars` here. -/
structure ExtractedKey where
  key : String
  message : String
  files : List String
  line : Nat
  vars : List String
  hasPlural : Bool
  hasDate : Bool
  ns : Option String
deriving DecidableEq, Repr

/-- Quote alternatives of the capture group `(['"`+"`"+`])`. -/
def isQuoteChar (c : Char) : Bool :=
  c = squoteChar || c = dquoteChar || c = backtickChar

/-- Search, in the characters following an opening quote, for the lazy end
of `(.+?)\1\s*\)`: the shortest nonempty content followed by the same
quote, optional whitespace and a closing parenthesis. Returns the content
and the characters after the closing parenthesis. Structural recursion:
one character is consumed into `acc` per step. -/
def findCloseGo (q : Char) (acc : List Char) : List Char → Option (List Char × List Char)
  | [] => none
  | c :: cs =>
    if c = q then
      match cs.dropWhile jsWs with
      | b :: rest => if b = rparenChar then some (acc, rest) else findCloseGo q (acc ++ [c]) cs
      | [] => findCloseGo q (acc ++ [c]) cs
    else findCloseGo q (acc ++ [c]) cs

/-- The `.+?` content needs at least one character, so the first character
after the quote is unconditionally content. -/
def findClose (q : Char) : List Char → Option (List Char × List Char)
  | [] => none
  | c :: cs => findCloseGo q [c] cs

/-- Scanner for `/\bt\(\s*(['"`+"`"+`])(.+?)\1\s*\)/gs`: leftmost matches,
continuing after each whole match. `idx` is the current absolute position,
`prevWord` whether the previous character was a `\w` character (for the
`\b` boundary; the scan starts at a boundary). Returns the list of
(captured content, match index) pairs. Fuel decreases by one per step and
the scanned list also shrinks, so the list length is sufficient fuel. -/
def scanCallsGo (fuel : Nat) (cs : List Char) (idx : Nat) (prevWord : Bool) :
    List (String × Nat) :=
  match fuel, cs with
  | 0, _ => []
  | _ + 1, [] => []
  | f + 1, c :: rest =>
    if c = 't' ∧ prevWord = false then
      match rest with
      | p :: r2 =>
        if p = lparenChar then
          match (r2.dropWhile jsWs) with
          | q :: r3 =>
            if isQuoteChar q then
              match findClose q r3 with
              | some (content, restAfter) =>
                (String.mk content, idx) ::
                  scanCallsGo f restAfter (idx + ((c :: rest).length - restAfter.length)) false
              | none => scanCallsGo f rest (idx + 1) (isWordChar c)
            else scanCallsGo f rest (idx + 1) (isWordChar c)
          | [] => scanCallsGo f rest (idx + 1) (isWordChar c)
        else scanCallsGo f rest (idx + 1) (isWordChar c)
      | [] => []
    else scanCallsGo f rest (idx + 1) (isWordChar c)

def scanCalls (cs : List Char) : List (String × Nat) :=
  scanCallsGo cs.length cs 0 false

/-- Embeds `getLineNumber`: `code.substring(0, index).split("\n").length`,
which is one more than the number of newlines before the index. -/
def getLineNumber (code : String) (index : Nat) : Nat :=
  ((code.toList.take index).filter (fun c => c = newlineChar)).length + 1

/-- The loop body of `extractFromCode`: dedupe by message text, length
bounds, validation, then build the record. -/
def extractLoop (code filePath : String) : List (String × Nat) → List String → List ExtractedKey
  | [], _ => []
  | (message, index) :: ms, seen =>
    if message ∈ seen then extractLoop code filePath ms seen
    else
      let seen2 := message :: seen
      if message.length < 1 ∨ message.length > 5000 then extractLoop code filePath ms seen2
      else
        match validateMessageFormat message with
        | .error _ => extractLoop code filePath ms seen2
        | .ok _ =>
          { key := message
            message := message
            files := [filePath]
            line := getLineNumber code index
            vars := extractVariables message
            hasPlural := hasPluralization message
            hasDate := hasDateFormatting message
            ns := none } :: extractLoop code filePath ms seen2

/-- Embeds `KeyExtractor.extractFromCode`. -/
def extractFromCode (code filePath : String) : List ExtractedKey :=
  extractLoop code filePath (scanCalls code.toList) []

/-! ### mergeKeys -/

/-- Key order used by the final `.sort((a, b) => a.key.localeCompare(b.key))`. -/
def keyLE (a b : ExtractedKey) : Prop := a.key ≤ b.key

instance : DecidableRel keyLE := fun a b => decStrLe a.key b.key

instance : IsTotal ExtractedKey keyLE := ⟨fun a b => le_total a.key b.key⟩

instance : IsTrans ExtractedKey keyLE := ⟨fun _ _ _ h1 h2 => le_trans h1 h2⟩

/-- JS `Map.set` keyed by `.key`: replace in place when the key is present,
append otherwise. -/
def mapSet (m : List ExtractedKey) (v : ExtractedKey) : List ExtractedKey :=
  if m.any (fun r => r.key = v.key) then m.map (fun r => if r.key = v.key then v else r)
  else m ++ [v]

/-- First pass of `mergeKeys`: every record of `keys1` is `set` into the
map (`{...key, files: [...key.files]}` copies the record and its files
array; in the pure embedding the copy is the record itself). -/
def phase1 (keys1 : List ExtractedKey) : List ExtractedKey :=
  keys1.foldl (fun m k => mapSet m k) []

/-- Second pass of `mergeKeys`: merge a `keys2` record into the map,
unioning (`[...new Set([...existing.files, ...key.files])].sort()`) when
the key already exists. -/
def phase2Step (m : List ExtractedKey) (k : ExtractedKey) : List ExtractedKey :=
  match m.find? (fun r => r.key = k.key) with
  | some existing =>
    mapSet m { existing with files := sortStrings (dedupFirst (existing.files ++ k.files)) }
  | none => mapSet m k

/-- Embeds `KeyExtractor.mergeKeys`: both passes, then
`.map(k => ({...k, files: k.files.sort()})).sort(by key)`. -/
def mergeKeys (keys1 keys2 : List ExtractedKey) : List ExtractedKey :=
  ((keys2.foldl phase2Step (phase1 keys1)).map
      (fun k => { k with files := sortStrings k.files })).insertionSort keyLE

/-- The accumulation `allKeys = mergeKeys(allKeys, keys)` the orchestrator
performs over the per-file key lists, starting from the empty list. -/
def foldMerge (perFile : List (List ExtractedKey)) : List ExtractedKey :=
  perFile.foldl mergeKeys []

/-- Key texts of a key list. -/
def keyTexts (l : List ExtractedKey) : List String :=
  l.map (·.key)

/-- All files recorded for a given key text across a key list. -/
def filesFor (t : String) (l : List ExtractedKey) : List String :=
  (l.filter (fun r => r.key = t)).flatMap (·.files)

/-- Concrete record builder for examples: a key as `extractFromCode` would
shape it, with an explicitly chosen file list. -/
def sampleKey (t : String) (fs : List String) : ExtractedKey :=
  { key := t, message := t, files := fs, line := 1, vars := extractVariables t,
    hasPlural := hasPluralization t, hasDate := hasDateFormatting t, ns := none }

/-- Invariant describing the accumulator of the second `mergeKeys` pass:
`m` is the key map, `base1` the first argument and `base2` the prefix of
the second argument processed so far. -/
structure MergeInv (base1 base2 m : List ExtractedKey) : Prop where
  nodup : (keyTexts m).Nodup
  mem_keys : ∀ t, t ∈ keyTexts m ↔ t ∈ keyTexts base1 ∨ t ∈ keyTexts base2
  files_mem : ∀ r ∈ m, ∀ f, f ∈ r.files ↔ f ∈ filesFor r.key base1 ∨ f ∈ filesFor r.key base2
  meta_prov : ∀ r ∈ m, ∃ r0, (r0 ∈ base1 ∨ r0 ∈ base2) ∧ r0.key = r.key ∧
    r0.message = r.message ∧ r0.vars = r.vars ∧ r0.hasPlural = r.hasPlural ∧
    r0.hasDate = r.hasDate
  files_nodup : (∀ r ∈ base1, r.files.Nodup) → (∀ r ∈ base2, r.files.Nodup) →
    ∀ r ∈ m, r.files.Nodup

/-! ### catalog-generator.js -/

/-- Existing translations: the key→value object loaded from a previous
catalog, as an insertion-ordered association list. -/
abbrev TranslationMap := List (String × String)

/-- Object property lookup. -/
def lookupTr (m : TranslationMap) (k : String) : Option String :=
  (m.find? (fun e => e.1 = k)).map (·.2)

/-- The string emitted in the value position for one key:
`isSourceLocale ? escapeString(key.message) : (existing[key.key] ?
escapeString(existing[key.key]) : "")`. The JS truthiness test on a string
is `≠ ""`. -/
def valueText (existingTranslations : TranslationMap) (isSourceLocale : Bool)
    (k : ExtractedKey) : String :=
  if isSourceLocale then escapeString k.message
  else
    match lookupTr existingTranslations k.key with
    | some v => if v = "" then "" else escapeString v
    | none => ""

def lbraceStr : String := String.singleton lbraceChar

def rbraceStr : String := String.singleton rbraceChar

def dquoteStr : String := String.singleton dquoteChar

/-- Embeds the body of the `sortedKeys.forEach` loop of `generateJS`: the
metadata comments and the `"key": "value",` line for one record. -/
def renderKey (existingTranslations : TranslationMap) (isSourceLocale : Bool)
    (k : ExtractedKey) : String :=
  (if k.vars.isEmpty then "" else "  // Variables: " ++ String.intercalate ", " k.vars ++ "\n") ++
  (if k.hasPlural then "  // Uses pluralization\n" else "") ++
  (if k.hasDate then "  // Uses date formatting\n" else "") ++
  "  " ++ dquoteStr ++ escapeString k.key ++ dquoteStr ++ ": " ++ dquoteStr ++
    valueText existingTranslations isSourceLocale k ++ dquoteStr ++ ",\n"

/-- Grouping label `key.files.map(toRelativePath).sort().join(" | ")` of
`groupKeysByFile`. The path relativization `toRelativePath` (which depends
on `process.cwd()`) is abstracted as the function parameter `rel`. -/
def fileLabel (rel : String → String) (k : ExtractedKey) : String :=
  String.intercalate " | " (sortStrings (k.files.map rel))

/-- Labels of `groupKeysByFile`'s object, in insertion order. -/
def groupLabels (rel : String → String) (keys : List ExtractedKey) : List String :=
  dedupFirst (keys.map (fileLabel rel))

/-- The bucket `grouped[fileList]`: records pushed in list order. -/
def groupBucket (rel : String → String) (keys : List ExtractedKey) (lbl : String) :
    List ExtractedKey :=
  keys.filter (fun k => fileLabel rel k = lbl)

/-- Final `output.replace(/,\n\n$/g, "\n")`. -/
def stripTrailingCommaBlank (s : String) : String :=
  if [commaChar, newlineChar, newlineChar].isSuffixOf s.toList then
    String.mk ((s.toList.take (s.toList.length - 3)) ++ [newlineChar])
  else s

/-- Embeds `CatalogGenerator.generateJS` (the sorted variant of
catalog-generator.js, lines 34–90): header, per-file-group block comments,
per-key metadata comments and quoted pairs, trailing-comma cleanup. -/
def generateJS (rel : String → String) (keys : List ExtractedKey)
    (existingTranslations : TranslationMap) (header : String) (isSourceLocale : Bool) : String :=
  let sortedFileGroups := sortStrings (groupLabels rel keys)
  let body := String.join (sortedFileGroups.map (fun file =>
    "  /*\n   " ++ file ++ "\n  */\n" ++
      String.join (((groupBucket rel keys file).insertionSort keyLE).map
        (renderKey existingTranslations isSourceLocale)) ++ "\n"))
  stripTrailingCommaBlank (header ++ lbraceStr ++ "\n" ++ body) ++ rbraceStr ++ ";\n"

/-- Embeds `Extractor.shouldWriteFile`: write when the file does not exist
or its current content differs byte-for-byte from the new content. -/
def shouldWriteFile (existing : Option String) (newContent : String) : Bool :=
  match existing with
  | none => true
  | some c => c ≠ newContent

/-! ### namespace.js -/

/-- Stage `.replace(/\[id\]/gi, "id")`: case-insensitive literal, global,
non-overlapping. -/
def replaceIdCI : List Char → List Char
  | c1 :: c2 :: c3 :: c4 :: rest =>
    if c1 = lbracketChar ∧ c2.toLower = 'i' ∧ c3.toLower = 'd' ∧ c4 = rbracketChar then
      'i' :: 'd' :: replaceIdCI rest
    else c1 :: replaceIdCI (c2 :: c3 :: c4 :: rest)
  | other => other

/-- Stage `.replace(/\[slug\]/gi, "slug")`. -/
def replaceSlugCI : List Char → List Char
  | c1 :: c2 :: c3 :: c4 :: c5 :: c6 :: rest =>
    if c1 = lbracketChar ∧ c2.toLower = 's' ∧ c3.toLower = 'l' ∧ c4.toLower = 'u' ∧
        c5.toLower = 'g' ∧ c6 = rbracketChar then
      's' :: 'l' :: 'u' :: 'g' :: replaceSlugCI rest
    else c1 :: replaceSlugCI (c2 :: c3 :: c4 :: c5 :: c6 :: rest)
  | other => other

/-- Stage `.replace(/\[[^\]]+\]/g, "param")`: an opening bracket, one or
more non-`]` characters, a closing bracket. Fuel as elsewhere. -/
def replaceParamGo (fuel : Nat) (cs : List Char) : List Char :=
  match fuel, cs with
  | 0, l => l
  | _ + 1, [] => []
  | f + 1, c :: rest =>
    if c = lbracketChar then
      let content := rest.takeWhile (fun x => x ≠ rbracketChar)
      match rest.drop content.length with
      | _ :: rest2 =>
        if content.isEmpty then c :: replaceParamGo f rest
        else 'p' :: 'a' :: 'r' :: 'a' :: 'm' :: replaceParamGo f rest2
      | [] => c :: replaceParamGo f rest
    else c :: replaceParamGo f rest

def replaceParam (cs : List Char) : List Char :=
  replaceParamGo cs.length cs

/-- Character class `[[\](){}<>]` of the bracket-removal stage. -/
def isBracketChar (c : Char) : Bool :=
  c = lbracketChar || c = rbracketChar || c = lparenChar || c = rparenChar ||
  c = lbraceChar || c = rbraceChar || c = '<' || c = '>'

/-- Character class kept by `.replace(/[^\w.-]/g, "_")`. -/
def isNamespaceKeep (c : Char) : Bool :=
  isWordChar c || c = '.' || c = '-'

/-- Collapse runs of `c` to a single occurrence (`.replace(/c+/g, "c")`). -/
def collapseRuns (c : Char) : List Char → List Char
  | [] => []
  | [x] => [x]
  | x :: y :: rest =>
    if x = c ∧ y = c then collapseRuns c (y :: rest)
    else x :: collapseRuns c (y :: rest)

def isDotOrUnderscore (c : Char) : Bool :=
  c = '.' || c = '_'

/-- Stage `.replace(/^[._]+|[._]+$/g, "")`. -/
def trimDotUnderscore (cs : List Char) : List Char :=
  ((cs.dropWhile isDotOrUnderscore).reverse.dropWhile isDotOrUnderscore).reverse

/-- Embeds `NamespaceGenerator.sanitizeNamespace`: the nine-stage chain. -/
def sanitizeNamespace (s : String) : String :=
  let s3 := replaceParam (replaceSlugCI (replaceIdCI s.toList))
  let s4 := s3.filter (fun c => !isBracketChar c)
  let s5 := s4.map (fun c => if isNamespaceKeep c then c else '_')
  let s7 := collapseRuns '.' (collapseRuns '_' s5)
  let s8 := trimDotUnderscore s7
  String.mk (s8.map Char.toLower)

/-- Embeds `NamespaceGenerator.generateFromDirectory` at the level of path
segments: `path.relative` + `split(path.sep)` is abstracted as the given
`parts` list. Strip a leading `src`, drop the file name, truncate to
`maxDepth`, join with dots, defaulting to `common`. -/
def generateFromDirectoryParts (maxDepth : Nat) (parts : List String) : String :=
  let parts1 := if parts.head? = some "src" then parts.tail else parts
  let dirs := parts1.dropLast
  let ns := String.intercalate "." (dirs.take maxDepth)
  if ns = "" then "common" else ns

/-- The `generate` pipeline for the `directory` strategy: strategy result,
then sanitization. -/
def generateDirectoryNS (maxDepth : Nat) (parts : List String) : String :=
  sanitizeNamespace (generateFromDirectoryParts maxDepth parts)

/-! ### Migration merge (extractor.js, migrateInvalidFileNames) -/

/-- JS object `set`: create or overwrite a data property, keeping the
original insertion position on overwrite. -/
def objSet (m : TranslationMap) (k v : String) : TranslationMap :=
  if m.any (fun e => e.1 = k) then m.map (fun e => if e.1 = k then (k, v) else e)
  else m ++ [(k, v)]

/-- Embeds `{...oldContent, ...newContent}`: spread both objects into a
fresh object in order, so the new content wins on conflicting keys. -/
def spreadMerge (oldContent newContent : TranslationMap) : TranslationMap :=
  newContent.foldl (fun m e => objSet m e.1 e.2) (oldContent.foldl (fun m e => objSet m e.1 e.2) [])

/-- Embeds the both-files-exist branch of `migrateInvalidFileNames`, with
the output directory abstracted as a finite map from path to loaded
key→value content (`loadTranslationFile` / `writeTranslationFile` are
treated as an exact mapping-level round trip): write the spread merge to
the target path, then remove the old path. -/
def migrateCollision (fs : String → Option TranslationMap) (oldPath newPath : String) :
    String → Option TranslationMap :=
  let oldContent := (fs oldPath).getD []
  let newContent := (fs newPath).getD []
  let merged := spreadMerge oldContent newContent
  fun p => if p = oldPath then none else if p = newPath then some merged else fs p

/-! ### Round-trip model for idempotence (claim C2) -/

/-- Decoder of the JS string-literal escapes that `escapeString` emits
(`\\`, `\"`, `\'`, `\n`, `\r`, `\t`; any other escaped character stands
for itself). -/
def jsUnescape : List Char → List Char
  | [] => []
  | [c] => if c = backslashChar then [] else [c]
  | c :: d :: rest =>
    if c = backslashChar then
      (if d = 'n' then [newlineChar] else if d = 'r' then [crChar]
       else if d = 't' then [tabChar] else [d]) ++ jsUnescape rest
    else c :: jsUnescape (d :: rest)

/-- Characters surviving `escapeString` (everything except the silently
stripped control characters). -/
def stripControl (cs : List Char) : List Char :=
  cs.filter (fun c => !(isStrippedControl c ∧ c ≠ newlineChar ∧ c ≠ crChar ∧ c ≠ tabChar))

/-- Modelled from the spec: loading a generated JS catalog back into a
mapping (spec §4.5 — dynamic `import` of the generated module, or
structural text extraction of the embedded object literal; the evaluation
step itself is JavaScript-runtime behaviour with no source under `src/`).
The recovered mapping holds, for every rendered record, the rendered key
and value with their JS string-literal escapes decoded. -/
def reloadCatalog (keys : List ExtractedKey) (existingTranslations : TranslationMap)
    (isSourceLocale : Bool) : TranslationMap :=
  keys.map (fun k =>
    (String.mk (jsUnescape (escapeString k.key).toList),
     String.mk (jsUnescape (valueText existingTranslations isSourceLocale k).toList)))

/-- A key text containing a stripped control character (`\x01`). -/
def ctrlKeyText : String := "a" ++ String.singleton (Char.ofNat 1) ++ "b"

/-- One-record key list with a stripped control character in the key. -/
def ctrlKeys : List ExtractedKey := [sampleKey ctrlKeyText ["f.vue"]]

/-- Existing-translation mapping holding a translation for that key. -/
def ctrlEt : TranslationMap := [(ctrlKeyText, "X")]

/-! ### Spec-side ICU tag shapes (claim C6) -/

/-- Decomposed shape of an ICU argument-type tag whose leading token is
drawn from the character class `tokCls` and whose type tag is one of
`tags`: the text contains `{`, whitespace, a nonempty token, whitespace,
a comma, whitespace, a tag word, whitespace and a comma, in that order. -/
def icuTagShape (tokCls : Char → Bool) (tags : List (List Char)) (cs : List Char) : Prop :=
  ∃ pre ws1 w ws2 ws3 t ws4 post,
    t ∈ tags ∧ w ≠ [] ∧ (∀ c ∈ w, tokCls c = true) ∧
    (∀ c ∈ ws1, jsWs c = true) ∧ (∀ c ∈ ws2, jsWs c = true) ∧
    (∀ c ∈ ws3, jsWs c = true) ∧ (∀ c ∈ ws4, jsWs c = true) ∧
    cs = pre ++ lbraceChar :: (ws1 ++ w ++ ws2 ++ commaChar :: (ws3 ++ t ++ ws4 ++
      commaChar :: post))

/-- The claim's reading of the plural tag: leading token an identifier
(`[A-Za-z_$][A-Za-z0-9_$]*` — every character from the identifier
continuation class, at least one, starting with a start character). -/
def identPluralTagShape (s : String) : Prop :=
  ∃ pre ws1 d w ws2 ws3 ws4 post,
    isIdentStart d = true ∧ (∀ c ∈ w, isIdentCont c = true) ∧
    (∀ c ∈ ws1, jsWs c = true) ∧ (∀ c ∈ ws2, jsWs c = true) ∧
    (∀ c ∈ ws3, jsWs c = true) ∧ (∀ c ∈ ws4, jsWs c = true) ∧
    s.toList = pre ++ lbraceChar :: (ws1 ++ (d :: w) ++ ws2 ++ commaChar :: (ws3 ++
      pluralTagChars ++ ws4 ++ commaChar :: post))

/-! ### Observation map and coherence (claim C1) -/

/-- Fields of a record that `generateJS` reads: everything except the line
number and the namespace (which depend on the scan order). `obs` zeroes
the unread fields. -/
def obs (r : ExtractedKey) : ExtractedKey :=
  { key := r.key, message := r.message, files := r.files, line := 0, vars := r.vars,
    hasPlural := r.hasPlural, hasDate := r.hasDate, ns := none }

/-- Coherence of an extracted record: its metadata is the classifier's
output on its own key text, as `extractFromCode` always produces. -/
def Coh (r : ExtractedKey) : Prop :=
  r.message = r.key ∧ r.vars = extractVariables r.key ∧
    r.hasPlural = hasPluralization r.key ∧ r.hasDate = hasDateFormatting r.key

/-- Invariant of the orchestrator's accumulation `allKeys = mergeKeys(allKeys,
keys)` over the per-file lists processed so far (`L`): the accumulator is a
sorted duplicate-free-keyed list whose key set and per-key file sets are the
unions over `L`, with sorted duplicate-free file lists and coherent metadata. -/
structure FoldInv (L : List (List ExtractedKey)) (m : List ExtractedKey) : Prop where
  nodup : (keyTexts m).Nodup
  sorted : m.Sorted keyLE
  mem_keys : ∀ t, t ∈ keyTexts m ↔ ∃ l ∈ L, t ∈ keyTexts l
  files : ∀ t f, f ∈ filesFor t m ↔ ∃ l ∈ L, f ∈ filesFor t l
  files_sorted : ∀ r ∈ m, r.files.Sorted (· ≤ ·)
  files_nodup : ∀ r ∈ m, r.files.Nodup
  coh : ∀ r ∈ m, Coh r

/-! ### Heap-level mergeKeys (claim C10) -/

/-- Heap of JS arrays: cell `i` holds a file list. Allocation appends. -/
abbrev Store := List (List String)

def readRef (σ : Store) (r : Nat) : List String :=
  (σ[r]?).getD []

def allocRef (σ : Store) (v : List String) : Store × Nat :=
  (σ ++ [v], σ.length)

def writeRef (σ : Store) (r : Nat) (v : List String) : Store :=
  σ.set r v

/-- A key record whose `files` array lives in the store. -/
structure HeapKey where
  key : String
  filesRef : Nat
deriving DecidableEq, Repr

/-- JS `Map.set` keyed by `.key`, for heap records. -/
def mapSetH (m : List HeapKey) (v : HeapKey) : List HeapKey :=
  if m.any (fun r => r.key = v.key) then m.map (fun r => if r.key = v.key then v else r)
  else m ++ [v]

/-- Heap-level first pass: `{...key, files: [...key.files]}` allocates a
fresh copy of the record's files array before the record is stored. -/
def phase1H (σ : Store) (keys1 : List HeapKey) : Store × List HeapKey :=
  keys1.foldl
    (fun acc k =>
      let al := allocRef acc.1 (readRef acc.1 k.filesRef)
      (al.1, mapSetH acc.2 { k with filesRef := al.2 }))
    (σ, [])

/-- Heap-level second pass: the union `[...new Set([...existing.files,
...key.files])]` is a fresh array; `.sort()` sorts that fresh array in
place; `existing.files = ...` rebinds the stored record's field to it. -/
def phase2StepH (acc : Store × List HeapKey) (k : HeapKey) : Store × List HeapKey :=
  match acc.2.find? (fun r => r.key = k.key) with
  | some existing =>
    let merged := sortStrings (dedupFirst (readRef acc.1 existing.filesRef ++
      readRef acc.1 k.filesRef))
    let al := allocRef acc.1 merged
    (al.1, mapSetH acc.2 { existing with filesRef := al.2 })
  | none =>
    let al := allocRef acc.1 (readRef acc.1 k.filesRef)
    (al.1, mapSetH acc.2 { k with filesRef := al.2 })

/-- Heap-level third pass: `.map(k => ({...k, files: k.files.sort()}))`
sorts each map value's array in place (the spread copies the record, which
keeps pointing at the same, now sorted, array). -/
def phase3H (acc : Store × List HeapKey) : Store × List HeapKey :=
  acc.2.foldl
    (fun st k => (writeRef st.1 k.filesRef (sortStrings (readRef st.1 k.filesRef)), st.2 ++ [k]))
    (acc.1, [])

def keyLEH (a b : HeapKey) : Prop := a.key ≤ b.key

instance : DecidableRel keyLEH := fun a b => decStrLe a.key b.key

/-- Heap-level `mergeKeys`: the three passes and the final sort of the
fresh `Array.from(keyMap.values())` array. Returns the final store and the
output records. -/
def mergeKeysHeap (σ : Store) (keys1 keys2 : List HeapKey) : Store × List HeapKey :=
  let afterTwo := keys2.foldl phase2StepH (phase1H σ keys1)
  let afterThree := phase3H afterTwo
  (afterThree.1, afterThree.2.insertionSort keyLEH)

/-! ## Theorems -/

/-! ### Generic list helpers -/

theorem mem_dedupKeep {x : String} :
    ∀ (seen l : List String), x ∈ dedupKeep seen l ↔ x ∈ l ∧ x ∉ seen := by
  intro seen l
  induction l generalizing seen with
  | nil => simp [dedupKeep]
  | cons a as ih =>
    by_cases h : a ∈ seen
    · simp only [dedupKeep, if_pos h, ih, List.mem_cons]
      constructor
      · rintro ⟨hx, hns⟩; exact ⟨Or.inr hx, hns⟩
      · rintro ⟨hx | hx, hns⟩
        · exact absurd (hx ▸ h) hns
        · exact ⟨hx, hns⟩
    · simp only [dedupKeep, if_neg h, List.mem_cons, ih]
      constructor
      · rintro (hx | ⟨hx, hns⟩)
        · refine ⟨Or.inl hx, ?_⟩; subst hx; exact h
        · exact ⟨Or.inr hx, fun hc => hns (Or.inr hc)⟩
      · rintro ⟨hx | hx, hns⟩
        · exact Or.inl hx
        · by_cases hxa : x = a
          · exact Or.inl hxa
          · refine Or.inr ⟨hx, fun hc => ?_⟩
            rcases hc with h1 | h1
            · exact hxa h1
            · exact hns h1

theorem nodup_dedupKeep : ∀ (seen l : List String), (dedupKeep seen l).Nodup := by
  intro seen l
  induction l generalizing seen with
  | nil => simp [dedupKeep]
  | cons a as ih =>
    by_cases h : a ∈ seen
    · simpa [dedupKeep, if_pos h] using ih seen
    · rw [dedupKeep, if_neg h]
      refine List.nodup_cons.mpr ⟨?_, ih (a :: seen)⟩
      intro hmem
      exact ((mem_dedupKeep _ _).mp hmem).2 (List.mem_cons_self _ _)

theorem mem_dedupFirst {x : String} {l : List String} : x ∈ dedupFirst l ↔ x ∈ l := by
  simp [dedupFirst, mem_dedupKeep]

theorem nodup_dedupFirst (l : List String) : (dedupFirst l).Nodup :=
  nodup_dedupKeep [] l

theorem sortStrings_eq_std (l : List String) :
    sortStrings l = List.insertionSort (fun a b : String => a ≤ b) l := by
  rw [sortStrings]
  congr 1

theorem sortStrings_perm (l : List String) : List.Perm (sortStrings l) l := by
  rw [sortStrings_eq_std]
  exact List.perm_insertionSort _ l

theorem mem_sortStrings {x : String} {l : List String} : x ∈ sortStrings l ↔ x ∈ l :=
  (sortStrings_perm l).mem_iff

theorem sorted_sortStrings (l : List String) : (sortStrings l).Sorted (· ≤ ·) := by
  rw [sortStrings_eq_std]
  exact List.sorted_insertionSort _ l

theorem nodup_sortStrings {l : List String} (h : l.Nodup) : (sortStrings l).Nodup :=
  ((sortStrings_perm l).nodup_iff).mpr h

/-- Two sorted duplicate-free lists over a linear order with the same
members are equal. -/
theorem sortedNodupExt {α : Type} [LinearOrder α] :
    ∀ {l1 l2 : List α}, l1.Sorted (· ≤ ·) → l2.Sorted (· ≤ ·) → l1.Nodup → l2.Nodup →
      (∀ x, x ∈ l1 ↔ x ∈ l2) → l1 = l2 := by
  intro l1
  induction l1 with
  | nil =>
    intro l2 _ _ _ _ hmem
    cases l2 with
    | nil => rfl
    | cons b t2 => exact absurd ((hmem b).mpr (List.mem_cons_self _ _)) (List.not_mem_nil b)
  | cons a t1 ih =>
    intro l2 hs1 hs2 hn1 hn2 hmem
    cases l2 with
    | nil => exact absurd ((hmem a).mp (List.mem_cons_self _ _)) (List.not_mem_nil a)
    | cons b t2 =>
      have hab : a = b := by
        rcases List.mem_cons.mp ((hmem a).mp (List.mem_cons_self _ _)) with h | h
        · exact h
        · rcases List.mem_cons.mp ((hmem b).mpr (List.mem_cons_self _ _)) with h2 | h2
          · exact h2.symm
          · exact le_antisymm (List.rel_of_sorted_cons hs1 b h2)
              (List.rel_of_sorted_cons hs2 a h)
      subst hab
      have htails : ∀ x, x ∈ t1 ↔ x ∈ t2 := by
        intro x
        constructor
        · intro hx
          rcases List.mem_cons.mp ((hmem x).mp (List.mem_cons_of_mem _ hx)) with h | h
          · exact absurd (h ▸ hx) (List.Nodup.not_mem hn1)
          · exact h
        · intro hx
          rcases List.mem_cons.mp ((hmem x).mpr (List.mem_cons_of_mem _ hx)) with h | h
          · exact absurd (h ▸ hx) (List.Nodup.not_mem hn2)
          · exact h
      have := ih (List.Sorted.of_cons hs1) (List.Sorted.of_cons hs2)
        (List.Nodup.of_cons hn1) (List.Nodup.of_cons hn2) htails
      rw [this]

/-! ### Escaping (claim C9) -/

theorem replaceAll_append (c : Char) (r : List Char) :
    ∀ xs ys, replaceAll c r (xs ++ ys) = replaceAll c r xs ++ replaceAll c r ys := by
  intro xs ys
  induction xs with
  | nil => rfl
  | cons a as ih => simp [replaceAll, ih]

theorem escapeList_append (xs ys : List Char) :
    escapeList (xs ++ ys) = escapeList xs ++ escapeList ys := by
  simp [escapeList, replaceAll_append, List.filter_append]

theorem escapeList_singleton (c : Char) : escapeList [c] = specEscapeChar c := by
  by_cases h1 : c = backslashChar
  · subst h1; rfl
  by_cases h2 : c = dquoteChar
  · subst h2; rfl
  by_cases h3 : c = squoteChar
  · subst h3; rfl
  by_cases h4 : c = newlineChar
  · subst h4; rfl
  by_cases h5 : c = crChar
  · subst h5; rfl
  by_cases h6 : c = tabChar
  · subst h6; rfl
  by_cases h7 : isStrippedControl c
  · simp [escapeList, replaceAll, specEscapeChar, h1, h2, h3, h4, h5, h6, h7]
  · simp [escapeList, replaceAll, specEscapeChar, h1, h2, h3, h4, h5, h6, h7]

theorem escapeList_eq_flatMap (cs : List Char) : escapeList cs = cs.flatMap specEscapeChar := by
  induction cs with
  | nil => rfl
  | cons c rest ih =>
    calc escapeList (c :: rest) = escapeList ([c] ++ rest) := rfl
    _ = escapeList [c] ++ escapeList rest := escapeList_append _ _
    _ = specEscapeChar c ++ rest.flatMap specEscapeChar := by rw [escapeList_singleton, ih]
    _ = (c :: rest).flatMap specEscapeChar := by simp

theorem noUnescapedQuote_cons_safe {c : Char} (h1 : c ≠ backslashChar) (h2 : c ≠ dquoteChar)
    (rest : List Char) : noUnescapedQuote (c :: rest) = noUnescapedQuote rest := by
  cases rest with
  | nil => simp [noUnescapedQuote, h2]
  | cons d t => simp [noUnescapedQuote, h1, h2]

theorem noUnescapedQuote_escaped_pair (x : Char) (rest : List Char) :
    noUnescapedQuote (backslashChar :: x :: rest) = noUnescapedQuote rest := by
  simp [noUnescapedQuote]

theorem noUnescapedQuote_flatMap (cs : List Char) :
    noUnescapedQuote (cs.flatMap specEscapeChar) = true := by
  induction cs with
  | nil => rfl
  | cons c rest ih =>
    rw [List.flatMap_cons]
    by_cases h1 : c = backslashChar
    · subst h1
      show noUnescapedQuote (backslashChar :: backslashChar :: rest.flatMap specEscapeChar) = true
      rw [noUnescapedQuote_escaped_pair]; exact ih
    by_cases h2 : c = dquoteChar
    · subst h2
      show noUnescapedQuote (backslashChar :: dquoteChar :: rest.flatMap specEscapeChar) = true
      rw [noUnescapedQuote_escaped_pair]; exact ih
    by_cases h3 : c = squoteChar
    · subst h3
      show noUnescapedQuote (backslashChar :: squoteChar :: rest.flatMap specEscapeChar) = true
      rw [noUnescapedQuote_escaped_pair]; exact ih
    by_cases h4 : c = newlineChar
    · subst h4
      show noUnescapedQuote (backslashChar :: 'n' :: rest.flatMap specEscapeChar) = true
      rw [noUnescapedQuote_escaped_pair]; exact ih
    by_cases h5 : c = crChar
    · subst h5
      show noUnescapedQuote (backslashChar :: 'r' :: rest.flatMap specEscapeChar) = true
      rw [noUnescapedQuote_escaped_pair]; exact ih
    by_cases h6 : c = tabChar
    · subst h6
      show noUnescapedQuote (backslashChar :: 't' :: rest.flatMap specEscapeChar) = true
      rw [noUnescapedQuote_escaped_pair]; exact ih
    by_cases h7 : isStrippedControl c
    · have hsc : specEscapeChar c = [] := by
        simp [specEscapeChar, h1, h2, h3, h4, h5, h6, h7]
      rw [hsc, List.nil_append]; exact ih
    · have hsc : specEscapeChar c = [c] := by
        simp [specEscapeChar, h1, h2, h3, h4, h5, h6, h7]
      rw [hsc, List.singleton_append, noUnescapedQuote_cons_safe h1 h2]
      exact ih

/-- Claim C9: for every input string, `escapeString` performs exactly the
per-character replacements the spec lists (backslash, double quote, single
quote, newline, carriage return, tab escaped; remaining control characters
including 0x7F removed), and consequently its output contains no unescaped
double-quote character, so a rendered value cannot terminate the generated
quoted string literal early. -/
theorem escape_string_safety (s : String) :
    (escapeString s).toList = s.toList.flatMap specEscapeChar ∧
      noUnescapedQuote (escapeString s).toList = true := by
  have hlist : (escapeString s).toList = escapeList s.toList := rfl
  rw [hlist, escapeList_eq_flatMap]
  exact ⟨rfl, noUnescapedQuote_flatMap s.toList⟩

/-! ### Message validation (claim C4) -/

theorem braceStep_split (c : Char) (n : Int) :
    (if c = lbraceChar then n + 1 else if c = rbraceChar then n - 1 else n) =
      n + (if c = lbraceChar then (1 : Int) else if c = rbraceChar then -1 else 0) := by
  by_cases h1 : c = lbraceChar
  · rw [if_pos h1, if_pos h1]
  · by_cases h2 : c = rbraceChar
    · rw [if_neg h1, if_pos h2, if_neg h1, if_pos h2]; ring
    · rw [if_neg h1, if_neg h2, if_neg h1, if_neg h2]; ring

theorem braceDepth_shift (cs : List Char) (n : Int) :
    cs.foldl (fun d c => if c = lbraceChar then d + 1 else if c = rbraceChar then d - 1 else d) n =
      n + braceDepth cs := by
  induction cs generalizing n with
  | nil => simp [braceDepth]
  | cons c cs ih =>
    simp only [braceDepth, List.foldl_cons] at *
    rw [ih, ih (if c = lbraceChar then (0 : Int) + 1 else if c = rbraceChar then 0 - 1 else 0),
      braceStep_split, braceStep_split]
    ring

theorem braceDepth_cons (c : Char) (cs : List Char) :
    braceDepth (c :: cs) =
      (if c = lbraceChar then (1 : Int) else if c = rbraceChar then -1 else 0) + braceDepth cs := by
  have h : braceDepth (c :: cs) =
      cs.foldl (fun d x => if x = lbraceChar then d + 1 else if x = rbraceChar then d - 1 else d)
        (if c = lbraceChar then (0 : Int) + 1 else if c = rbraceChar then 0 - 1 else 0) := rfl
  rw [h, braceDepth_shift, braceStep_split]
  ring

theorem braceScan_some (cs : List Char) (n m : Int) (h : braceScan cs n = some m) :
    m = n + braceDepth cs := by
  induction cs generalizing n with
  | nil =>
    simp only [braceScan, Option.some_inj] at h
    simp [braceDepth, ← h]
  | cons c cs ih =>
    rw [braceScan] at h
    by_cases hneg : (if c = lbraceChar then n + 1 else if c = rbraceChar then n - 1 else n) < 0
    · rw [if_pos hneg] at h
      exact absurd h (by simp)
    · rw [if_neg hneg] at h
      have := ih _ h
      rw [this, braceDepth_cons, braceStep_split]
      ring

theorem braceDepth_nil : braceDepth [] = 0 := rfl

theorem braceScan_none_iff (cs : List Char) (n : Int) (hn : 0 ≤ n) :
    braceScan cs n = none ↔
      ∃ k ∈ List.range (cs.length + 1), n + braceDepth (cs.take k) < 0 := by
  induction cs generalizing n with
  | nil =>
    simp only [braceScan]
    constructor
    · intro h; exact absurd h (by simp)
    · rintro ⟨k, hk, hneg⟩
      simp only [List.length_nil, List.mem_range] at hk
      interval_cases k
      rw [List.take_nil, braceDepth_nil] at hneg
      omega
  | cons c cs ih =>
    have hstep : (if c = lbraceChar then n + 1 else if c = rbraceChar then n - 1 else n) =
        n + braceDepth [c] := by
      rw [braceStep_split, braceDepth_cons c [], braceDepth_nil]
      ring
    have htake : ∀ k, braceDepth ((c :: cs).take (k + 1)) =
        braceDepth [c] + braceDepth (cs.take k) := by
      intro k
      rw [List.take_succ_cons, braceDepth_cons, braceDepth_cons c [], braceDepth_nil]
      ring
    have hunfold : braceScan (c :: cs) n =
        if (n + braceDepth [c]) < 0 then none else braceScan cs (n + braceDepth [c]) := by
      rw [braceScan]
      simp only [hstep]
    by_cases hneg : n + braceDepth [c] < 0
    · rw [hunfold, if_pos hneg]
      constructor
      · intro _
        refine ⟨1, ?_, ?_⟩
        · simp only [List.mem_range, List.length_cons]; omega
        · rw [htake 0, List.take_zero, braceDepth_nil]
          omega
      · intro _; rfl
    · rw [hunfold, if_neg hneg, ih (n + braceDepth [c]) (by omega)]
      constructor
      · rintro ⟨k, hk, hv⟩
        refine ⟨k + 1, ?_, ?_⟩
        · simp only [List.mem_range, List.length_cons] at hk ⊢; omega
        · rw [htake k]; omega
      · rintro ⟨k, hk, hv⟩
        cases k with
        | zero =>
          rw [List.take_zero, braceDepth_nil] at hv
          omega
        | succ k =>
          refine ⟨k, ?_, ?_⟩
          · simp only [List.mem_range, List.length_cons] at hk ⊢; omega
          · rw [htake k] at hv; omega

theorem extractVariables_fold_valid (ms : List String) :
    ∀ (acc : List String), (∀ v ∈ acc, isValidVariableName v = true) →
      ∀ v ∈ ms.foldl
        (fun vars varName =>
          if isValidVariableName varName ∧ varName ∉ vars then vars ++ [varName] else vars) acc,
      isValidVariableName v = true := by
  induction ms with
  | nil => intro acc hacc v hv; exact hacc v hv
  | cons mname ms ih =>
    intro acc hacc v hv
    simp only [List.foldl_cons] at hv
    by_cases hc : isValidVariableName mname ∧ mname ∉ acc
    · rw [if_pos hc] at hv
      refine ih _ ?_ v hv
      intro w hw
      rcases List.mem_append.mp hw with h | h
      · exact hacc w h
      · rcases List.mem_singleton.mp h with rfl
        exact hc.1
    · rw [if_neg hc] at hv
      exact ih _ hacc v hv

/-- Every variable `extractVariables` returns passes `isValidVariableName`
(the guard inside the collection loop). -/
theorem extractVariables_valid (s : String) :
    ∀ v ∈ extractVariables s, isValidVariableName v = true :=
  extractVariables_fold_valid _ [] (by simp)

/-- Claim C4: over strings, `validateMessageFormat m` fails exactly when
the length exceeds 5000, or the running brace depth goes negative at some
prefix or is nonzero at the end, or some extracted variable name fails the
identifier pattern; the length and brace conditions raise their own
distinct error messages, and the variable condition is vacuous because the
extraction loop only ever returns valid names (the JS non-string guard has
no counterpart over typed strings). On every other string validation
returns without error. -/
theorem validateMessageFormat_eq_long (m : String) (hlen : m.length > 5000) :
    validateMessageFormat m = Except.error "Message too long (max 5000 characters)" := by
  rw [validateMessageFormat, if_pos hlen]

theorem validateMessageFormat_eq_scanNone (m : String) (hlen : ¬m.length > 5000)
    (hscan : braceScan m.toList 0 = none) :
    validateMessageFormat m = Except.error "Unbalanced braces in message" := by
  rw [validateMessageFormat, if_neg hlen, hscan]

theorem validateMessageFormat_eq_scanSome (m : String) (hlen : ¬m.length > 5000) (n : Int)
    (hscan : braceScan m.toList 0 = some n) :
    validateMessageFormat m =
      (if n ≠ 0 then Except.error "Unbalanced braces in message"
       else
         match (extractVariables m).find? (fun v => !isValidVariableName v) with
         | some v => Except.error ("Invalid variable name: " ++ v)
         | none => Except.ok ()) := by
  rw [validateMessageFormat, if_neg hlen, hscan]

theorem validate_message_format_conditions (m : String) :
    ((validateMessageFormat m = .ok ()) ↔
      ¬(m.length > 5000 ∨ braceViolation m ∨
        ∃ v ∈ extractVariables m, isValidVariableName v = false)) ∧
    (m.length > 5000 → validateMessageFormat m = .error "Message too long (max 5000 characters)") ∧
    (m.length ≤ 5000 → braceViolation m →
      validateMessageFormat m = .error "Unbalanced braces in message") ∧
    (∀ v ∈ extractVariables m, isValidVariableName v = true) := by
  have hvalid := extractVariables_valid m
  have hnovar : ¬∃ v ∈ extractVariables m, isValidVariableName v = false := by
    rintro ⟨v, hv, hfalse⟩
    rw [hvalid v hv] at hfalse
    simp at hfalse
  have hfind : (extractVariables m).find? (fun v => !isValidVariableName v) = none := by
    rw [List.find?_eq_none]
    intro v hv
    simp [hvalid v hv]
  by_cases hlen : m.length > 5000
  · refine ⟨?_, fun _ => validateMessageFormat_eq_long m hlen,
      fun h _ => absurd hlen (by omega), hvalid⟩
    rw [validateMessageFormat_eq_long m hlen]
    simp [hlen]
  · rcases hscan : braceScan m.toList 0 with _ | n
    · have hviol : braceViolation m := by
        left
        have h0 := (braceScan_none_iff m.toList 0 le_rfl).mp hscan
        simpa using h0
      refine ⟨?_, fun h => absurd h hlen,
        fun _ _ => validateMessageFormat_eq_scanNone m hlen hscan, hvalid⟩
      rw [validateMessageFormat_eq_scanNone m hlen hscan]
      simp [hviol]
    · have hdepth : n = braceDepth m.toList := by simpa using braceScan_some m.toList 0 n hscan
      have heq := validateMessageFormat_eq_scanSome m hlen n hscan
      by_cases hzero : n = 0
      · have hnoviol : ¬braceViolation m := by
          rintro (⟨k, hk, hneg⟩ | hnz)
          · have hnone : braceScan m.toList 0 = none :=
              (braceScan_none_iff m.toList 0 le_rfl).mpr ⟨k, hk, by simpa using hneg⟩
            rw [hscan] at hnone
            exact absurd hnone (by simp)
          · exact hnz (by omega)
        refine ⟨?_, fun h => absurd h hlen, fun _ hv => absurd hv hnoviol, hvalid⟩
        rw [heq, if_neg (by simp [hzero]), hfind]
        simp [hlen, hnoviol, hnovar]
      · have hviol : braceViolation m := Or.inr (by omega)
        refine ⟨?_, fun h => absurd h hlen, fun _ _ => by rw [heq, if_pos hzero], hvalid⟩
        rw [heq, if_pos hzero]
        simp [hviol]

/-- Concrete instances of claim C4: a plain message validates, an
unbalanced one produces the brace error. -/
theorem validate_message_format_conditions_case :
    validateMessageFormat "hello" = .ok () ∧
      validateMessageFormat unbalancedExample = Except.error "Unbalanced braces in message" :=
  ⟨(validate_message_format_conditions "hello").1.mpr (by decide),
   (validate_message_format_conditions unbalancedExample).2.2.1 (by decide) (by decide)⟩

/-! ### Namespace sanitization (claim C5) -/

/-- Counterexample to claim C5 as stated: a `(group)` segment does not
strip to empty and is not removed from the joined path — the directory
strategy on `pages/(group)/employees/Login.vue` yields
`pages.group.employees` (the parentheses are stripped, the word `group`
survives as a segment), not `pages.employees`. -/
theorem group_segment_not_removed :
    generateDirectoryNS 3 ["pages", "(group)", "employees", "Login.vue"] =
        "pages.group.employees" ∧
      generateDirectoryNS 3 ["pages", "(group)", "employees", "Login.vue"] ≠ "pages.employees" := by
  constructor
  · rfl
  · decide

/-- Claim C5 as amended: under the directory strategy
`pages/employees/[id]` sanitizes to `pages.employees.id`, and a segment
containing `(group)` has only its parentheses stripped, leaving `group` as
a namespace segment (consistent with the repository's own migration test,
which expects `en.pages.group.items.param.js`). -/
theorem namespace_sanitization_examples :
    generateDirectoryNS 3 ["pages", "employees", "[id]", "index.vue"] = "pages.employees.id" ∧
      generateDirectoryNS 3 ["pages", "(group)", "employees", "Login.vue"] =
        "pages.group.employees" ∧
      sanitizeNamespace "pages.(group).employees" = "pages.group.employees" := by
  exact ⟨rfl, rfl, rfl⟩

/-! ### Literal-only call matching (claim C3) -/

/-- Claim C3: `t(variableName)` and `t("key" + suffix)` produce zero
extracted keys, and a backtick call with `Hello {name}` produces exactly
one key whose variables list is `["name"]`, for every source file path. -/
theorem literal_only_extraction (filePath : String) :
    extractFromCode "t(variableName)" filePath = [] ∧
      extractFromCode "t(\"key\" + suffix)" filePath = [] ∧
      (extractFromCode "t(`Hello {name}`)" filePath).map (fun r => (r.key, r.vars)) =
        [("Hello {name}", ["name"])] := by
  refine ⟨rfl, rfl, rfl⟩

/-! ### Migration merge precedence (claim C7) -/

theorem lookupTr_map_replace_eq (m : TranslationMap) (k v : String)
    (hex : ∃ e ∈ m, e.1 = k) :
    lookupTr (m.map (fun e => if e.1 = k then (k, v) else e)) k = some v := by
  induction m with
  | nil => simp at hex
  | cons e m ih =>
    rw [List.map_cons]
    by_cases he : e.1 = k
    · rw [if_pos he, lookupTr, List.find?_cons_of_pos _ (by simp)]
      rfl
    · rw [if_neg he]
      have hex2 : ∃ x ∈ m, x.1 = k := by
        rcases hex with ⟨x, hx, hxk⟩
        rcases List.mem_cons.mp hx with rfl | hx2
        · exact absurd hxk he
        · exact ⟨x, hx2, hxk⟩
      rw [lookupTr, List.find?_cons_of_neg _ (by simp only [decide_eq_true_eq]; exact he)]
      exact ih hex2

theorem lookupTr_map_replace_ne (m : TranslationMap) (k v t : String) (htk : ¬t = k) :
    lookupTr (m.map (fun e => if e.1 = k then (k, v) else e)) t = lookupTr m t := by
  induction m with
  | nil => rfl
  | cons e m ih =>
    rw [List.map_cons]
    by_cases he : e.1 = k
    · rw [if_pos he]
      simp only [lookupTr]
      rw [List.find?_cons_of_neg _
          (by simp only [decide_eq_true_eq]; exact fun h => htk h.symm),
        List.find?_cons_of_neg _
          (by simp only [decide_eq_true_eq]; exact fun h => htk (by rw [← h, he]))]
      exact ih
    · rw [if_neg he]
      simp only [lookupTr]
      by_cases het : e.1 = t
      · rw [List.find?_cons_of_pos _ (by simp only [decide_eq_true_eq]; exact het),
          List.find?_cons_of_pos _ (by simp only [decide_eq_true_eq]; exact het)]
      · rw [List.find?_cons_of_neg _ (by simp only [decide_eq_true_eq]; exact het),
          List.find?_cons_of_neg _ (by simp only [decide_eq_true_eq]; exact het)]
        exact ih

theorem lookupTr_append_single (m : TranslationMap) (k v t : String)
    (hnone : m.find? (fun e => e.1 = k) = none) :
    lookupTr (m ++ [(k, v)]) t = if t = k then some v else lookupTr m t := by
  simp only [lookupTr, List.find?_append]
  by_cases htk : t = k
  · subst htk
    rw [if_pos rfl, hnone]
    simp [List.find?]
  · rw [if_neg htk]
    rcases hfm : m.find? (fun e => decide (e.1 = t)) with _ | e
    · rw [hfm]
      simp only [Option.none_or]
      have : ((k, v).1 = t) = False := by
        simp only [eq_iff_iff, iff_false]
        exact fun h => htk h.symm
      simp [List.find?, this]
    · rw [hfm]
      rfl

theorem lookupTr_objSet (m : TranslationMap) (k v t : String) :
    lookupTr (objSet m k v) t = if t = k then some v else lookupTr m t := by
  by_cases hmem : m.any (fun e => e.1 = k)
  · rw [objSet, if_pos hmem]
    by_cases htk : t = k
    · subst htk
      rw [if_pos rfl]
      exact lookupTr_map_replace_eq m t v (by simpa using hmem)
    · rw [if_neg htk]
      exact lookupTr_map_replace_ne m k v t htk
  · rw [objSet, if_neg hmem]
    apply lookupTr_append_single
    rw [List.find?_eq_none]
    intro e he
    simp only [decide_eq_true_eq]
    intro hc
    exact hmem (List.any_eq_true.mpr ⟨e, he, by simpa using hc⟩)

theorem lookupTr_foldl_objSet (l : TranslationMap) :
    ∀ (b : TranslationMap) (t : String), (l.map (·.1)).Nodup →
      lookupTr (l.foldl (fun m e => objSet m e.1 e.2) b) t =
        (match lookupTr l t with
         | some v => some v
         | none => lookupTr b t) := by
  induction l with
  | nil => intro b t _; simp [lookupTr]
  | cons e l ih =>
    intro b t hnd
    simp only [List.foldl_cons]
    rw [ih _ t (by simpa using hnd.of_cons)]
    by_cases hte : t = e.1
    · have hrest : lookupTr l t = none := by
        rw [lookupTr]
        have hfn : l.find? (fun x => x.1 = t) = none := by
          rw [List.find?_eq_none]
          intro x hx
          simp only [decide_eq_true_eq]
          intro hxe
          have hm : e.1 ∈ l.map (·.1) := List.mem_map.mpr ⟨x, hx, by rw [hxe]; exact hte⟩
          exact (List.nodup_cons.mp (by simpa using hnd)).1 hm
        rw [hfn]; rfl
      rw [hrest, lookupTr_objSet, if_pos hte]
      have hhead : lookupTr (e :: l) t = some e.2 := by
        rw [lookupTr,
          List.find?_cons_of_pos _ (by simp only [decide_eq_true_eq]; exact hte.symm)]
        rfl
      rw [hhead]
    · rw [lookupTr_objSet, if_neg hte]
      have hhead : lookupTr (e :: l) t = lookupTr l t := by
        rw [lookupTr,
          List.find?_cons_of_neg _ (by simp only [decide_eq_true_eq]; exact fun h => hte h.symm)]
        rfl
      rw [hhead]

/-- Claim C7: when an old invalid-named catalog file and its
sanitized-named target both exist, after migration the target holds the
spread merge of both contents, lookup in that merge is the union with the
new-named file's value winning on every conflicting key, and the old-named
file no longer exists. -/
theorem migration_merge_precedence (fsm : String → Option TranslationMap)
    (oldPath newPath : String) (oldContent newContent : TranslationMap)
    (hne : oldPath ≠ newPath)
    (hold : fsm oldPath = some oldContent) (hnew : fsm newPath = some newContent)
    (hndOld : (oldContent.map (·.1)).Nodup) (hndNew : (newContent.map (·.1)).Nodup) :
    migrateCollision fsm oldPath newPath newPath = some (spreadMerge oldContent newContent) ∧
    migrateCollision fsm oldPath newPath oldPath = none ∧
    (∀ k, lookupTr (spreadMerge oldContent newContent) k =
      (match lookupTr newContent k with
       | some v => some v
       | none => lookupTr oldContent k)) := by
  refine ⟨?_, ?_, ?_⟩
  · simp [migrateCollision, hold, hnew, if_neg (Ne.symm hne)]
  · simp [migrateCollision]
  · intro k
    rw [spreadMerge, lookupTr_foldl_objSet _ _ _ hndNew, lookupTr_foldl_objSet _ _ _ hndOld]
    rcases lookupTr newContent k with _ | v
    · rcases lookupTr oldContent k with _ | w
      · simp [lookupTr]
      · simp
    · simp

/-- Concrete instance of claim C7, the spec's own example: old
`{a:"1", shared:"old"}`, new `{b:"2", shared:"new"}` merge to
`{a:"1", b:"2", shared:"new"}` at the target path and the old path is
gone. -/
theorem migration_merge_precedence_case :
    migrateCollision
        (fun p => if p = "old.js" then some [("a", "1"), ("shared", "old")]
          else if p = "new.js" then some [("b", "2"), ("shared", "new")] else none)
        "old.js" "new.js" "new.js" = some [("a", "1"), ("shared", "new"), ("b", "2")] ∧
    migrateCollision
        (fun p => if p = "old.js" then some [("a", "1"), ("shared", "old")]
          else if p = "new.js" then some [("b", "2"), ("shared", "new")] else none)
        "old.js" "new.js" "old.js" = none ∧
    lookupTr (spreadMerge [("a", "1"), ("shared", "old")] [("b", "2"), ("shared", "new")])
        "shared" = some "new" := by
  have h := migration_merge_precedence
    (fun p => if p = "old.js" then some [("a", "1"), ("shared", "old")]
      else if p = "new.js" then some [("b", "2"), ("shared", "new")] else none)
    "old.js" "new.js" [("a", "1"), ("shared", "old")] [("b", "2"), ("shared", "new")]
    (by decide) (by decide) (by decide) (by decide) (by decide)
  refine ⟨?_, h.2.1, ?_⟩
  · rw [h.1]
    decide
  · rw [h.2.2 "shared"]
    decide

/-! ### Classifier contract (claim C6) -/

theorem drop_length_takeWhile {α : Type} (p : α → Bool) (l : List α) :
    l.drop (l.takeWhile p).length = l.dropWhile p := by
  have h : (l.takeWhile p ++ l.dropWhile p).drop (l.takeWhile p).length = l.dropWhile p :=
    List.drop_left _ _
  rwa [List.takeWhile_append_dropWhile] at h

theorem identStart_ne_lbrace {c : Char} (h : isIdentStart c = true) : c ≠ lbraceChar := by
  intro hc
  subst hc
  exact absurd h (by decide)

theorem identCont_ne_lbrace {c : Char} (h : isIdentCont c = true) : c ≠ lbraceChar := by
  intro hc
  subst hc
  exact absurd h (by decide)

theorem specTokens_cons_ne {c : Char} (h : c ≠ lbraceChar) (xs : List Char) :
    specTokens (c :: xs) = specTokens xs := by
  simp [specTokens, h]

theorem matchVarAt_some_decomp {cs : List Char} {name : String} {rest2 : List Char}
    (h : matchVarAt cs = some (name, rest2)) :
    ∃ d run, cs = d :: (run ++ rbraceChar :: rest2) ∧ isIdentStart d = true ∧
      (∀ c ∈ run, isIdentCont c = true) ∧ name = String.mk (d :: run) := by
  match cs, h with
  | d :: rest, h =>
    rw [matchVarAt] at h
    by_cases hd : isIdentStart d
    · rw [if_pos hd] at h
      simp only [] at h
      rcases hafter : rest.drop (rest.takeWhile isIdentCont).length with _ | ⟨b, r2⟩
      · rw [hafter] at h; exact absurd h (by simp)
      · rw [hafter] at h
        simp only [] at h
        by_cases hb : b = rbraceChar
        · rw [if_pos hb] at h
          simp only [Option.some_inj, Prod.mk.injEq] at h
          rw [drop_length_takeWhile] at hafter
          refine ⟨d, rest.takeWhile isIdentCont, ?_, hd,
            fun c hc => List.mem_takeWhile_imp hc, h.1.symm⟩
          have h2 : rest = rest.takeWhile isIdentCont ++ rbraceChar :: rest2 := by
            conv_lhs => rw [← List.takeWhile_append_dropWhile isIdentCont rest]
            rw [hafter, hb, h.2]
          rw [← h2]
        · rw [if_neg hb] at h; exact absurd h (by simp)
    · rw [if_neg hd] at h; exact absurd h (by simp)

theorem matchVarAt_some_rest2 {cs : List Char} {name : String} {rest2 : List Char}
    (h : matchVarAt cs = some (name, rest2)) : rest2.length < cs.length := by
  rcases matchVarAt_some_decomp h with ⟨d, run, hcs, _, _, _⟩
  rw [hcs]
  simp only [List.length_cons, List.length_append]
  omega

theorem specTokens_span {run : List Char} (hrun : ∀ c ∈ run, isIdentCont c = true)
    (rest : List Char) :
    specTokens (run ++ rbraceChar :: rest) = specTokens rest := by
  induction run with
  | nil =>
    rw [List.nil_append, specTokens_cons_ne (by decide)]
  | cons c run ih =>
    rw [List.cons_append,
      specTokens_cons_ne (identCont_ne_lbrace (hrun c (List.mem_cons_self _ _)))]
    exact ih (fun x hx => hrun x (List.mem_cons_of_mem _ hx))

theorem rawVarGo_eq_specTokens :
    ∀ (fuel : Nat) (cs : List Char), cs.length ≤ fuel → rawVarGo fuel cs = specTokens cs := by
  intro fuel
  induction fuel with
  | zero =>
    intro cs hcs
    rw [Nat.le_zero, List.length_eq_zero] at hcs
    subst hcs
    rfl
  | succ f ih =>
    intro cs hcs
    match cs with
    | [] => rfl
    | c :: rest =>
      by_cases hc : c = lbraceChar
      · subst hc
        rcases hm : matchVarAt rest with _ | ⟨name, rest2⟩
        · rw [rawVarGo, if_pos rfl, hm]
          show rawVarGo f rest = specTokens (lbraceChar :: rest)
          rw [specTokens, hm]
          simp only [List.length_cons] at hcs
          rw [ih rest (by omega)]
          simp
        · rw [rawVarGo, if_pos rfl, hm]
          show name :: rawVarGo f rest2 = specTokens (lbraceChar :: rest)
          have hlen := matchVarAt_some_rest2 hm
          simp only [List.length_cons] at hcs
          rw [ih rest2 (by omega)]
          rcases matchVarAt_some_decomp hm with ⟨d, run, hrest, hd, hrun, hname⟩
          rw [specTokens, hm, if_pos rfl]
          rw [hrest, specTokens_cons_ne (identStart_ne_lbrace hd), specTokens_span hrun]
          simp
      · rw [rawVarGo, specTokens_cons_ne hc]
        simp only [if_neg hc]
        simp only [List.length_cons] at hcs
        exact ih rest (by omega)

theorem specTokens_valid (cs : List Char) :
    ∀ v ∈ specTokens cs, isValidVariableName v = true := by
  induction cs with
  | nil => intro v hv; simp [specTokens] at hv
  | cons c rest ih =>
    intro v hv
    rw [specTokens] at hv
    rcases List.mem_append.mp hv with h | h
    · by_cases hc : c = lbraceChar
      · rw [if_pos hc] at h
        rcases hm : matchVarAt rest with _ | ⟨name, rest2⟩
        · rw [hm] at h; simp at h
        · rw [hm] at h
          simp at h
          subst h
          rcases matchVarAt_some_decomp hm with ⟨d, run, _, hd, hrun, hname⟩
          rw [hname, isValidVariableName]
          have : (String.mk (d :: run)).toList = d :: run := rfl
          rw [this]
          simp only [Bool.and_eq_true]
          exact ⟨hd, List.all_eq_true.mpr (fun c hc2 => hrun c hc2)⟩
      · rw [if_neg hc] at h; simp at h
    · exact ih v h

theorem dedupKeep_congr {s1 s2 : List String} (h : ∀ y, y ∈ s1 ↔ y ∈ s2) :
    ∀ l, dedupKeep s1 l = dedupKeep s2 l := by
  intro l
  induction l generalizing s1 s2 with
  | nil => rfl
  | cons x xs ih =>
    by_cases hx : x ∈ s1
    · rw [dedupKeep, if_pos hx, dedupKeep, if_pos ((h x).mp hx)]
      exact ih h
    · rw [dedupKeep, if_neg hx, dedupKeep, if_neg (fun hc => hx ((h x).mpr hc))]
      have h2 : ∀ y, y ∈ x :: s1 ↔ y ∈ x :: s2 := by
        intro y
        simp [h y]
      rw [ih h2]

theorem validFold_eq_dedupKeep (ms : List String) :
    ∀ acc, (∀ v ∈ ms, isValidVariableName v = true) →
      ms.foldl
        (fun vars varName =>
          if isValidVariableName varName ∧ varName ∉ vars then vars ++ [varName] else vars) acc =
        acc ++ dedupKeep acc ms := by
  induction ms with
  | nil => intro acc _; simp [dedupKeep]
  | cons x xs ih =>
    intro acc hall
    have hx : isValidVariableName x = true := hall x (List.mem_cons_self _ _)
    have hxs : ∀ v ∈ xs, isValidVariableName v = true :=
      fun v hv => hall v (List.mem_cons_of_mem _ hv)
    rw [List.foldl_cons]
    by_cases hmem : x ∈ acc
    · rw [if_neg (by simp [hmem]), dedupKeep, if_pos hmem]
      exact ih acc hxs
    · rw [if_pos ⟨hx, hmem⟩, dedupKeep, if_neg hmem, ih (acc ++ [x]) hxs]
      have h2 : ∀ y, y ∈ acc ++ [x] ↔ y ∈ x :: acc := by
        intro y
        simp
        tauto
      rw [dedupKeep_congr h2 xs]
      simp

/-- The code's variable extraction equals the spec-side collection of the
distinct brace-delimited identifier tokens in first-occurrence order. -/
theorem extractVariables_eq_specVariables (m : String) :
    extractVariables m = specVariables m := by
  rw [extractVariables, rawVariableMatches, rawVarGo_eq_specTokens _ _ le_rfl,
    validFold_eq_dedupKeep _ [] (specTokens_valid m.toList)]
  rw [specVariables, dedupFirst]
  simp

theorem wordChar_not_ws {c : Char} (h : isWordChar c = true) : jsWs c = false := by
  simp [isWordChar, Char.isAlpha, Char.isUpper, Char.isLower, Char.isDigit] at h
  have hn : (65 ≤ c.toNat ∧ c.toNat ≤ 90) ∨ (97 ≤ c.toNat ∧ c.toNat ≤ 122) ∨
      (48 ≤ c.toNat ∧ c.toNat ≤ 57) ∨ c.toNat = 95 := by
    rcases h with ((⟨h1, h2⟩ | ⟨h1, h2⟩) | ⟨h1, h2⟩) | hu
    · exact Or.inl ⟨UInt32.le_toNat_of_le (by decide) h1, UInt32.toNat_le_of_le (by decide) h2⟩
    · exact Or.inr (Or.inl ⟨UInt32.le_toNat_of_le (by decide) h1,
        UInt32.toNat_le_of_le (by decide) h2⟩)
    · exact Or.inr (Or.inr (Or.inl ⟨UInt32.le_toNat_of_le (by decide) h1,
        UInt32.toNat_le_of_le (by decide) h2⟩))
    · subst hu
      exact Or.inr (Or.inr (Or.inr rfl))
  simp [jsWs]
  omega

theorem ws_not_wordChar {c : Char} (h : jsWs c = true) : isWordChar c = false := by
  by_contra hc
  rw [Bool.not_eq_false] at hc
  rw [wordChar_not_ws hc] at h
  simp at h

theorem takeWhile_word_stop (ws2 B : List Char) (h2 : ∀ c ∈ ws2, jsWs c = true) :
    (ws2 ++ commaChar :: B).takeWhile isWordChar = [] := by
  cases ws2 with
  | nil =>
    rw [List.nil_append]
    exact List.takeWhile_cons_of_neg (by decide)
  | cons z zs =>
    rw [List.cons_append]
    exact List.takeWhile_cons_of_neg
      (by simp [ws_not_wordChar (h2 z (List.mem_cons_self _ _))])

theorem dropWhile_ws_to_comma (ws2 B : List Char) (h2 : ∀ c ∈ ws2, jsWs c = true) :
    (ws2 ++ commaChar :: B).dropWhile jsWs = commaChar :: B := by
  rw [List.dropWhile_append_of_pos h2]
  exact List.dropWhile_cons_of_neg (by decide)

/-- Soundness of the tag matcher at a brace: a successful match decomposes
the following text into the spec's shape. -/
theorem matchIcu_sound {tags : List (List Char)} {rest : List Char}
    (h : matchIcuTagAfterBrace tags rest = true) :
    ∃ ws1 w ws2 ws3 t ws4 post,
      t ∈ tags ∧ w ≠ [] ∧ (∀ c ∈ w, isWordChar c = true) ∧
      (∀ c ∈ ws1, jsWs c = true) ∧ (∀ c ∈ ws2, jsWs c = true) ∧
      (∀ c ∈ ws3, jsWs c = true) ∧ (∀ c ∈ ws4, jsWs c = true) ∧
      rest = ws1 ++ (w ++ (ws2 ++ commaChar :: (ws3 ++ (t ++ (ws4 ++ commaChar :: post))))) := by
  rw [matchIcuTagAfterBrace] at h
  simp only [] at h
  by_cases hw : (((rest.dropWhile jsWs).takeWhile isWordChar).isEmpty : Bool)
  · rw [if_pos hw] at h; exact absurd h (by simp)
  · rw [if_neg hw] at h
    rcases h2 : (((rest.dropWhile jsWs).drop
        ((rest.dropWhile jsWs).takeWhile isWordChar).length).dropWhile jsWs) with _ | ⟨c2, r3⟩
    · rw [h2] at h; exact absurd h (by simp)
    · rw [h2] at h
      simp only [] at h
      by_cases hc2 : c2 = commaChar
      · rw [if_pos hc2] at h
        rw [List.any_eq_true] at h
        obtain ⟨t, htmem, ht⟩ := h
        rw [Bool.and_eq_true] at ht
        obtain ⟨hpre, htail⟩ := ht
        rcases h3 : (((r3.dropWhile jsWs).drop t.length).dropWhile jsWs) with _ | ⟨c3, post1⟩
        · rw [h3] at htail; exact absurd htail (by simp)
        · rw [h3] at htail
          simp only [decide_eq_true_eq] at htail
          obtain ⟨u, hu⟩ := List.isPrefixOf_iff_prefix.mp hpre
          rw [drop_length_takeWhile] at h2
          have hdropu : (r3.dropWhile jsWs).drop t.length = u := by
            rw [← hu]
            exact List.drop_left _ _
          rw [hdropu] at h3
          refine ⟨rest.takeWhile jsWs, (rest.dropWhile jsWs).takeWhile isWordChar,
            ((rest.dropWhile jsWs).dropWhile isWordChar).takeWhile jsWs,
            r3.takeWhile jsWs, t, u.takeWhile jsWs, post1,
            htmem, by simpa using hw, fun c hc => List.mem_takeWhile_imp hc,
            fun c hc => List.mem_takeWhile_imp hc, fun c hc => List.mem_takeWhile_imp hc,
            fun c hc => List.mem_takeWhile_imp hc, fun c hc => List.mem_takeWhile_imp hc, ?_⟩
          conv_lhs => rw [← List.takeWhile_append_dropWhile jsWs rest]
          have e2 : rest.dropWhile jsWs =
              (rest.dropWhile jsWs).takeWhile isWordChar ++
                ((rest.dropWhile jsWs).dropWhile isWordChar) :=
            (List.takeWhile_append_dropWhile _ _).symm
          have e3 : (rest.dropWhile jsWs).dropWhile isWordChar =
              ((rest.dropWhile jsWs).dropWhile isWordChar).takeWhile jsWs ++ (c2 :: r3) := by
            conv_lhs =>
              rw [← List.takeWhile_append_dropWhile jsWs
                ((rest.dropWhile jsWs).dropWhile isWordChar)]
            rw [h2]
          have e4 : r3 = r3.takeWhile jsWs ++ (t ++ u) := by
            conv_lhs => rw [← List.takeWhile_append_dropWhile jsWs r3]
            rw [← hu]
          have e5 : u = u.takeWhile jsWs ++ (c3 :: post1) := by
            conv_lhs => rw [← List.takeWhile_append_dropWhile jsWs u]
            rw [h3]
          rw [hc2] at e3
          rw [htail] at e5
          conv_lhs => rw [e2, e3, e4, e5]
      · rw [if_neg hc2] at h; exact absurd h (by simp)

/-- Completeness of the tag matcher at a brace: the spec's shape makes the
matcher succeed. -/
theorem matchIcu_complete (tags : List (List Char)) (ws1 w ws2 ws3 t ws4 post : List Char)
    (htmem : t ∈ tags) (hth : ∃ th tt, t = th :: tt ∧ jsWs th = false)
    (hwne : w ≠ []) (hwc : ∀ c ∈ w, isWordChar c = true)
    (h1 : ∀ c ∈ ws1, jsWs c = true) (h2 : ∀ c ∈ ws2, jsWs c = true)
    (h3 : ∀ c ∈ ws3, jsWs c = true) (h4 : ∀ c ∈ ws4, jsWs c = true) :
    matchIcuTagAfterBrace tags
      (ws1 ++ (w ++ (ws2 ++ commaChar :: (ws3 ++ (t ++ (ws4 ++ commaChar :: post)))))) = true := by
  obtain ⟨wh, wt, rfl⟩ := List.exists_cons_of_ne_nil hwne
  obtain ⟨th, tt, hteq, hthws⟩ := hth
  have hr1 : (ws1 ++ ((wh :: wt) ++ (ws2 ++ commaChar :: (ws3 ++ (t ++ (ws4 ++ commaChar :: post)))))).dropWhile jsWs =
      (wh :: wt) ++ (ws2 ++ commaChar :: (ws3 ++ (t ++ (ws4 ++ commaChar :: post)))) := by
    rw [List.dropWhile_append_of_pos h1, List.cons_append,
      List.dropWhile_cons_of_neg
        (by simp [wordChar_not_ws (hwc wh (List.mem_cons_self _ _))])]
  have hw' : ((wh :: wt) ++ (ws2 ++ commaChar :: (ws3 ++ (t ++ (ws4 ++ commaChar :: post))))).takeWhile isWordChar =
      wh :: wt := by
    rw [List.takeWhile_append_of_pos hwc, takeWhile_word_stop _ _ h2, List.append_nil]
  have hdropw : ((wh :: wt) ++ (ws2 ++ commaChar :: (ws3 ++ (t ++ (ws4 ++ commaChar :: post))))).drop (wh :: wt).length =
      ws2 ++ commaChar :: (ws3 ++ (t ++ (ws4 ++ commaChar :: post))) :=
    List.drop_left _ _
  have hdw2 := dropWhile_ws_to_comma ws2 (ws3 ++ (t ++ (ws4 ++ commaChar :: post))) h2
  have hr4 : (ws3 ++ (t ++ (ws4 ++ commaChar :: post))).dropWhile jsWs =
      t ++ (ws4 ++ commaChar :: post) := by
    rw [List.dropWhile_append_of_pos h3, hteq, List.cons_append,
      List.dropWhile_cons_of_neg (by simp [hthws]), ← List.cons_append, ← hteq]
  rw [matchIcuTagAfterBrace]
  simp only []
  rw [hr1, hw', if_neg (by simp), hdropw, hdw2]
  simp only [if_true]
  rw [List.any_eq_true]
  refine ⟨t, htmem, ?_⟩
  rw [Bool.and_eq_true]
  constructor
  · rw [hr4]
    exact List.isPrefixOf_iff_prefix.mpr (List.prefix_append _ _)
  · rw [hr4]
    have hdt : (t ++ (ws4 ++ commaChar :: post)).drop t.length = ws4 ++ commaChar :: post :=
      List.drop_left _ _
    rw [hdt, dropWhile_ws_to_comma _ _ h4]
    simp

/-- The compiled regex search `/\{\s*\w+\s*,\s*tag\s*,/` succeeds exactly
on texts containing the decomposed tag shape. -/
theorem icuTagSearch_true_iff (tags : List (List Char))
    (htags : ∀ t ∈ tags, ∃ th tt, t = th :: tt ∧ jsWs th = false) :
    ∀ cs : List Char, icuTagSearch tags cs = true ↔ icuTagShape isWordChar tags cs := by
  intro cs
  induction cs with
  | nil =>
    constructor
    · intro h; exact absurd h (by simp [icuTagSearch])
    · rintro ⟨pre, ws1, w, ws2, ws3, t, ws4, post, _, _, _, _, _, _, _, heq⟩
      exact absurd heq.symm (by simp)
  | cons c rest ih =>
    rw [icuTagSearch]
    simp only [Bool.or_eq_true, Bool.and_eq_true, decide_eq_true_eq]
    constructor
    · rintro (⟨hc, hmatch⟩ | hsearch)
      · subst hc
        obtain ⟨ws1, w, ws2, ws3, t, ws4, post, htmem, hwne, hwc, hh1, hh2, hh3, hh4, heq⟩ :=
          matchIcu_sound hmatch
        refine ⟨[], ws1, w, ws2, ws3, t, ws4, post, htmem, hwne, hwc, hh1, hh2, hh3, hh4, ?_⟩
        rw [List.nil_append, heq]
        simp [List.append_assoc]
      · obtain ⟨pre, ws1, w, ws2, ws3, t, ws4, post, htmem, hwne, hwc, hh1, hh2, hh3, hh4, heq⟩ :=
          ih.mp hsearch
        refine ⟨c :: pre, ws1, w, ws2, ws3, t, ws4, post, htmem, hwne, hwc, hh1, hh2, hh3, hh4, ?_⟩
        rw [heq, List.cons_append]
    · rintro ⟨pre, ws1, w, ws2, ws3, t, ws4, post, htmem, hwne, hwc, hh1, hh2, hh3, hh4, heq⟩
      cases pre with
      | nil =>
        rw [List.nil_append] at heq
        rcases List.cons.injEq .. ▸ heq with ⟨hc, hrest⟩
        left
        refine ⟨hc, ?_⟩
        have hshape := matchIcu_complete tags ws1 w ws2 ws3 t ws4 post htmem
          (htags t htmem) hwne hwc hh1 hh2 hh3 hh4
        have hrest2 : rest =
            ws1 ++ (w ++ (ws2 ++ commaChar :: (ws3 ++ (t ++ (ws4 ++ commaChar :: post))))) := by
          rw [hrest]
          simp [List.append_assoc]
        rw [hrest2]
        exact hshape
      | cons p pre =>
        rw [List.cons_append] at heq
        rcases List.cons.injEq .. ▸ heq with ⟨hc, hrest⟩
        right
        refine ih.mpr ⟨pre, ws1, w, ws2, ws3, t, ws4, post, htmem, hwne, hwc, hh1, hh2, hh3, hh4, hrest⟩

/-- Counterexample to claim C6 as stated: the plural (and date) tag token
uses the regex class `\w+`, not the identifier class — the message whose
brace content is `$x, plural, y` contains an identifier-led plural tag in
the claim's sense, yet `hasPluralization` is false on it (a dollar sign is
not a `\w` character). -/
theorem plural_tag_identifier_mismatch :
    hasPluralization pluralDollarExample = false ∧ identPluralTagShape pluralDollarExample := by
  constructor
  · decide
  · refine ⟨[], [], dollarChar, ['x'], [], [' '], [], (' ' :: 'y' :: rbraceChar :: []),
      by decide, by decide, by decide, by decide, by decide, by decide, by decide⟩

/-- Claim C6 as amended: the classifier returns the distinct
brace-delimited identifier tokens in first-occurrence order as variables
(non-identifier brace content is never a variable), while `hasPlural` and
`hasDate` hold if and only if the message contains the
`{ token , plural , …` (resp. `date`/`time`) shape whose leading token is
a nonempty run of `\w` word characters `[A-Za-z0-9_]` — digits are
accepted and `$` is not, unlike the identifier class of the variable
rule. -/
theorem classifier_contract_word_tags (m : String) :
    extractVariables m = specVariables m ∧
    (hasPluralization m = true ↔ icuTagShape isWordChar [pluralTagChars] m.toList) ∧
    (hasDateFormatting m = true ↔
      icuTagShape isWordChar [dateTagChars, timeTagChars] m.toList) := by
  refine ⟨extractVariables_eq_specVariables m, ?_, ?_⟩
  · exact icuTagSearch_true_iff [pluralTagChars]
      (by
        intro t ht
        rw [List.mem_singleton] at ht
        subst ht
        exact ⟨'p', _, rfl, by decide⟩) m.toList
  · exact icuTagSearch_true_iff [dateTagChars, timeTagChars]
      (by
        intro t ht
        rcases List.mem_cons.mp ht with rfl | ht2
        · exact ⟨'d', _, rfl, by decide⟩
        · rw [List.mem_singleton] at ht2
          subst ht2
          exact ⟨'t', _, rfl, by decide⟩) m.toList

/-! ### mergeKeys characterization (claims C8 and C1) -/

theorem mem_keyTexts {t : String} {l : List ExtractedKey} :
    t ∈ keyTexts l ↔ ∃ r ∈ l, r.key = t := by
  simp [keyTexts]

theorem mem_filesFor {f t : String} {l : List ExtractedKey} :
    f ∈ filesFor t l ↔ ∃ r ∈ l, r.key = t ∧ f ∈ r.files := by
  simp only [filesFor, List.mem_flatMap, List.mem_filter, decide_eq_true_eq]
  constructor
  · rintro ⟨r, ⟨hr, hk⟩, hf⟩
    exact ⟨r, hr, hk, hf⟩
  · rintro ⟨r, hr, hk, hf⟩
    exact ⟨r, ⟨hr, hk⟩, hf⟩

theorem filesFor_append (t : String) (l1 l2 : List ExtractedKey) :
    filesFor t (l1 ++ l2) = filesFor t l1 ++ filesFor t l2 := by
  rw [filesFor, List.filter_append, List.flatMap_append]
  rfl

theorem filesFor_nil (t : String) : filesFor t [] = [] := rfl

theorem filesFor_self {m : List ExtractedKey} (hnd : (keyTexts m).Nodup) {r : ExtractedKey}
    (hr : r ∈ m) : filesFor r.key m = r.files := by
  induction m with
  | nil => simp at hr
  | cons e m ih =>
    rcases List.mem_cons.mp hr with rfl | hrm
    · rw [filesFor, List.filter_cons_of_pos (by simp)]
      have hnot : m.filter (fun x => x.key = r.key) = [] := by
        rw [List.filter_eq_nil_iff]
        intro x hx
        simp only [decide_eq_true_eq]
        intro hk
        have : r.key ∈ keyTexts m := mem_keyTexts.mpr ⟨x, hx, hk⟩
        exact (List.nodup_cons.mp (by simpa [keyTexts] using hnd)).1 this
      rw [hnot]
      simp
    · have hne : ¬(e.key = r.key) := by
        intro hk
        have : e.key ∈ keyTexts m := mem_keyTexts.mpr ⟨r, hrm, hk.symm⟩
        exact (List.nodup_cons.mp (by simpa [keyTexts] using hnd)).1 this
      rw [filesFor, List.filter_cons_of_neg (by simpa using hne)]
      exact ih (by simpa [keyTexts] using (List.nodup_cons.mp (by simpa [keyTexts] using hnd)).2) hrm

theorem mapSet_any_iff {m : List ExtractedKey} {v : ExtractedKey} :
    (m.any (fun r => r.key = v.key) = true) ↔ v.key ∈ keyTexts m := by
  rw [List.any_eq_true]
  constructor
  · rintro ⟨r, hr, hk⟩
    simp only [decide_eq_true_eq] at hk
    exact mem_keyTexts.mpr ⟨r, hr, hk⟩
  · intro h
    obtain ⟨r, hr, hk⟩ := mem_keyTexts.mp h
    exact ⟨r, hr, by simpa using hk⟩

theorem keyTexts_mapSet_of_mem {m : List ExtractedKey} {v : ExtractedKey}
    (hmem : m.any (fun r => r.key = v.key) = true) : keyTexts (mapSet m v) = keyTexts m := by
  rw [mapSet, if_pos hmem, keyTexts, keyTexts, List.map_map]
  apply List.map_congr_left
  intro r _
  by_cases hr : r.key = v.key
  · simp only [Function.comp_apply, if_pos hr]
    exact hr.symm
  · simp only [Function.comp_apply, if_neg hr]

theorem keyTexts_mapSet_of_not_mem {m : List ExtractedKey} {v : ExtractedKey}
    (hmem : ¬(m.any (fun r => r.key = v.key) = true)) :
    keyTexts (mapSet m v) = keyTexts m ++ [v.key] := by
  rw [mapSet, if_neg hmem, keyTexts, keyTexts, List.map_append]
  rfl

theorem mapSet_nodup {m : List ExtractedKey} {v : ExtractedKey}
    (h : (keyTexts m).Nodup) : (keyTexts (mapSet m v)).Nodup := by
  by_cases hmem : m.any (fun r => r.key = v.key) = true
  · rwa [keyTexts_mapSet_of_mem hmem]
  · rw [keyTexts_mapSet_of_not_mem hmem]
    have hnot : v.key ∉ keyTexts m := fun hc => hmem (mapSet_any_iff.mpr hc)
    simp [List.nodup_append, h, hnot]

theorem mapSet_mem_records {m : List ExtractedKey} {v r : ExtractedKey}
    (h : r ∈ mapSet m v) : r = v ∨ (r ∈ m ∧ r.key ≠ v.key) := by
  rw [mapSet] at h
  by_cases hmem : m.any (fun x => x.key = v.key) = true
  · rw [if_pos hmem] at h
    obtain ⟨r0, hr0, hfr⟩ := List.mem_map.mp h
    by_cases hk : r0.key = v.key
    · rw [if_pos hk] at hfr
      exact Or.inl hfr.symm
    · rw [if_neg hk] at hfr
      subst hfr
      exact Or.inr ⟨hr0, hk⟩
  · rw [if_neg hmem] at h
    rcases List.mem_append.mp h with hm | hv
    · refine Or.inr ⟨hm, fun hk => hmem (mapSet_any_iff.mpr ?_)⟩
      exact hk ▸ mem_keyTexts.mpr ⟨r, hm, rfl⟩
    · exact Or.inl (List.mem_singleton.mp hv)

theorem mapSet_self_mem (m : List ExtractedKey) (v : ExtractedKey) : v ∈ mapSet m v := by
  rw [mapSet]
  by_cases hmem : m.any (fun x => x.key = v.key) = true
  · rw [if_pos hmem]
    obtain ⟨r0, hr0, hk⟩ := List.any_eq_true.mp hmem
    simp only [decide_eq_true_eq] at hk
    exact List.mem_map.mpr ⟨r0, hr0, by rw [if_pos hk]⟩
  · rw [if_neg hmem]
    simp

theorem mapSet_mem_preserve {m : List ExtractedKey} {v r : ExtractedKey}
    (hr : r ∈ m) (hk : r.key ≠ v.key) : r ∈ mapSet m v := by
  rw [mapSet]
  by_cases hmem : m.any (fun x => x.key = v.key) = true
  · rw [if_pos hmem]
    exact List.mem_map.mpr ⟨r, hr, by rw [if_neg hk]⟩
  · rw [if_neg hmem]
    exact List.mem_append.mpr (Or.inl hr)

theorem keyTexts_append (l1 l2 : List ExtractedKey) :
    keyTexts (l1 ++ l2) = keyTexts l1 ++ keyTexts l2 := by
  rw [keyTexts, keyTexts, keyTexts, List.map_append]

theorem phase2Step_inv {base1 base2 m : List ExtractedKey} (hinv : MergeInv base1 base2 m)
    (k : ExtractedKey) : MergeInv base1 (base2 ++ [k]) (phase2Step m k) := by
  have hkeys2 : ∀ t, t ∈ keyTexts (base2 ++ [k]) ↔ t ∈ keyTexts base2 ∨ t = k.key := by
    intro t
    rw [keyTexts_append]
    simp [keyTexts]
  have hfiles2 : ∀ t f, f ∈ filesFor t (base2 ++ [k]) ↔
      f ∈ filesFor t base2 ∨ (t = k.key ∧ f ∈ k.files) := by
    intro t f
    rw [filesFor_append, List.mem_append]
    constructor
    · rintro (h | h)
      · exact Or.inl h
      · obtain ⟨r, hr, hk, hf⟩ := mem_filesFor.mp h
        rw [List.mem_singleton] at hr
        subst hr
        exact Or.inr ⟨hk.symm, hf⟩
    · rintro (h | ⟨ht, hf⟩)
      · exact Or.inl h
      · exact Or.inr (mem_filesFor.mpr ⟨k, List.mem_singleton_self _, ht.symm, hf⟩)
  rcases hfind : m.find? (fun r => r.key = k.key) with _ | existing
  · have hnotin : k.key ∉ keyTexts m := by
      intro hc
      obtain ⟨r, hr, hk⟩ := mem_keyTexts.mp hc
      have := List.find?_eq_none.mp hfind r hr
      simp [hk] at this
    have hnotb1 : k.key ∉ keyTexts base1 := fun hc =>
      hnotin ((hinv.mem_keys k.key).mpr (Or.inl hc))
    have hnotb2 : k.key ∉ keyTexts base2 := fun hc =>
      hnotin ((hinv.mem_keys k.key).mpr (Or.inr hc))
    have hfb1 : filesFor k.key base1 = [] := by
      rcases hf : filesFor k.key base1 with _ | ⟨f, fs⟩
      · rfl
      · exfalso
        have : f ∈ filesFor k.key base1 := by rw [hf]; exact List.mem_cons_self _ _
        obtain ⟨r, hr, hk, _⟩ := mem_filesFor.mp this
        exact hnotb1 (mem_keyTexts.mpr ⟨r, hr, hk⟩)
    have hfb2 : filesFor k.key base2 = [] := by
      rcases hf : filesFor k.key base2 with _ | ⟨f, fs⟩
      · rfl
      · exfalso
        have : f ∈ filesFor k.key base2 := by rw [hf]; exact List.mem_cons_self _ _
        obtain ⟨r, hr, hk, _⟩ := mem_filesFor.mp this
        exact hnotb2 (mem_keyTexts.mpr ⟨r, hr, hk⟩)
    rw [phase2Step, hfind]
    refine ⟨mapSet_nodup hinv.nodup, ?_, ?_, ?_, ?_⟩
    · intro t
      rw [keyTexts_mapSet_of_not_mem (fun hc => hnotin (mapSet_any_iff.mp hc)), hkeys2]
      simp only [List.mem_append, List.mem_singleton]
      rw [hinv.mem_keys t]
      tauto
    · intro r hr f
      rcases mapSet_mem_records hr with rfl | ⟨hrm, hrk⟩
      · rw [hfiles2 r.key f, hfb1]
        simp only [List.not_mem_nil, false_or]
        constructor
        · intro hf
          exact Or.inr ⟨by simp, hf⟩
        · rintro (hc | ⟨_, hf⟩)
          · obtain ⟨r0, hr0, hk0, _⟩ := mem_filesFor.mp hc
            exact absurd (mem_keyTexts.mpr ⟨r0, hr0, hk0⟩) hnotb2
          · exact hf
      · rw [hinv.files_mem r hrm f, hfiles2 r.key f]
        have : ¬(r.key = k.key ∧ f ∈ k.files) := fun ⟨hc, _⟩ => hrk hc
        tauto
    · intro r hr
      rcases mapSet_mem_records hr with rfl | ⟨hrm, _⟩
      · exact ⟨r, Or.inr (List.mem_append.mpr (Or.inr (List.mem_singleton_self _))),
          rfl, rfl, rfl, rfl, rfl⟩
      · obtain ⟨r0, hr0, hmeta⟩ := hinv.meta_prov r hrm
        refine ⟨r0, ?_, hmeta⟩
        rcases hr0 with h | h
        · exact Or.inl h
        · exact Or.inr (List.mem_append.mpr (Or.inl h))
    · intro hb1 hb2 r hr
      rcases mapSet_mem_records hr with rfl | ⟨hrm, _⟩
      · exact hb2 r (List.mem_append.mpr (Or.inr (List.mem_singleton_self _)))
      · exact hinv.files_nodup hb1 (fun x hx => hb2 x (List.mem_append.mpr (Or.inl hx))) r hrm
  · have hexm : existing ∈ m := List.mem_of_find?_eq_some hfind
    have hexk : existing.key = k.key := by
      have := List.find?_some hfind
      simpa using this
    have hin : k.key ∈ keyTexts m := mem_keyTexts.mpr ⟨existing, hexm, hexk⟩
    have hstep : phase2Step m k =
        mapSet m { existing with
          files := sortStrings (dedupFirst (existing.files ++ k.files)) } := by
      rw [phase2Step, hfind]
    rw [hstep]
    have hany : m.any (fun r =>
        r.key = ({ existing with
          files := sortStrings (dedupFirst (existing.files ++ k.files)) } : ExtractedKey).key) = true := by
      apply mapSet_any_iff.mpr
      show existing.key ∈ keyTexts m
      exact mem_keyTexts.mpr ⟨existing, hexm, rfl⟩
    refine ⟨mapSet_nodup hinv.nodup, ?_, ?_, ?_, ?_⟩
    · intro t
      rw [keyTexts_mapSet_of_mem hany, hkeys2, hinv.mem_keys t]
      constructor
      · rintro (h | h)
        · exact Or.inl h
        · exact Or.inr (Or.inl h)
      · rintro (h | h | rfl)
        · exact Or.inl h
        · exact Or.inr h
        · exact ((hinv.mem_keys k.key).mp hin).imp id id
    · intro r hr f
      rcases mapSet_mem_records hr with heq | ⟨hrm, hrk⟩
      · subst heq
        show f ∈ sortStrings (dedupFirst (existing.files ++ k.files)) ↔
          f ∈ filesFor existing.key base1 ∨ f ∈ filesFor existing.key (base2 ++ [k])
        rw [hexk]
        simp only [mem_sortStrings, mem_dedupFirst, List.mem_append]
        rw [hinv.files_mem existing hexm f, hexk, hfiles2 k.key f]
        tauto
      · rw [hinv.files_mem r hrm f, hfiles2 r.key f]
        have hne : ¬(r.key = k.key ∧ f ∈ k.files) := by
          rintro ⟨hc, _⟩
          apply hrk
          show r.key = ({ existing with
            files := sortStrings (dedupFirst (existing.files ++ k.files)) } : ExtractedKey).key
          rw [hc]
          exact hexk.symm
        tauto
    · intro r hr
      rcases mapSet_mem_records hr with heq | ⟨hrm, _⟩
      · subst heq
        obtain ⟨r0, hr0, hmeta⟩ := hinv.meta_prov existing hexm
        refine ⟨r0, ?_, hmeta⟩
        rcases hr0 with h | h
        · exact Or.inl h
        · exact Or.inr (List.mem_append.mpr (Or.inl h))
      · obtain ⟨r0, hr0, hmeta⟩ := hinv.meta_prov r hrm
        refine ⟨r0, ?_, hmeta⟩
        rcases hr0 with h | h
        · exact Or.inl h
        · exact Or.inr (List.mem_append.mpr (Or.inl h))
    · intro hb1 hb2 r hr
      rcases mapSet_mem_records hr with heq | ⟨hrm, _⟩
      · subst heq
        exact nodup_sortStrings (nodup_dedupFirst _)
      · exact hinv.files_nodup hb1 (fun x hx => hb2 x (List.mem_append.mpr (Or.inl hx))) r hrm

theorem phase2_fold_inv {base1 : List ExtractedKey} :
    ∀ (b : List ExtractedKey) {base2 m : List ExtractedKey}, MergeInv base1 base2 m →
      MergeInv base1 (base2 ++ b) (b.foldl phase2Step m) := by
  intro b
  induction b with
  | nil =>
    intro base2 m hinv
    simpa using hinv
  | cons k b ih =>
    intro base2 m hinv
    have hstep := phase2Step_inv hinv k
    have := ih hstep
    simpa [List.append_assoc] using this

theorem keyTexts_cons (k : ExtractedKey) (l : List ExtractedKey) :
    keyTexts (k :: l) = k.key :: keyTexts l := rfl

theorem foldl_mapSet_disjoint :
    ∀ (a m0 : List ExtractedKey), (keyTexts a).Nodup →
      (∀ t, t ∈ keyTexts a → t ∉ keyTexts m0) →
      a.foldl (fun m k => mapSet m k) m0 = m0 ++ a := by
  intro a
  induction a with
  | nil =>
    intro m0 _ _
    simp
  | cons k rest ih =>
    intro m0 hnd hdisj
    rw [keyTexts_cons] at hnd
    have hknot : ¬(m0.any (fun r => r.key = k.key) = true) := by
      intro hc
      exact hdisj k.key (by rw [keyTexts_cons]; exact List.mem_cons_self _ _)
        (mapSet_any_iff.mp hc)
    have hnd' : (keyTexts rest).Nodup := (List.nodup_cons.mp hnd).2
    have hhead : k.key ∉ keyTexts rest := (List.nodup_cons.mp hnd).1
    have hdisj' : ∀ t, t ∈ keyTexts rest → t ∉ keyTexts (m0 ++ [k]) := by
      intro t ht hc
      rw [keyTexts_append] at hc
      rcases List.mem_append.mp hc with h1 | h2
      · exact hdisj t (by rw [keyTexts_cons]; exact List.mem_cons_of_mem _ ht) h1
      · have ht2 : t = k.key := by simpa [keyTexts] using h2
        exact hhead (ht2 ▸ ht)
    have hset : mapSet m0 k = m0 ++ [k] := by rw [mapSet, if_neg hknot]
    rw [List.foldl_cons, hset, ih (m0 ++ [k]) hnd' hdisj', List.append_assoc]
    rfl

/-- When `keys1` has duplicate-free key texts, the first `mergeKeys` pass
is the identity (no in-place replacement ever fires). -/
theorem phase1_eq_self {a : List ExtractedKey} (hnd : (keyTexts a).Nodup) : phase1 a = a := by
  have h := foldl_mapSet_disjoint a [] hnd (by intro t _ hc; simp [keyTexts] at hc)
  rw [phase1, h]
  rfl

theorem mergeInv_init {a : List ExtractedKey} (hnd : (keyTexts a).Nodup) : MergeInv a [] a := by
  refine ⟨hnd, ?_, ?_, ?_, ?_⟩
  · intro t
    simp [keyTexts]
  · intro r hr f
    rw [filesFor_self hnd hr, filesFor_nil]
    simp
  · intro r hr
    exact ⟨r, Or.inl hr, rfl, rfl, rfl, rfl, rfl⟩
  · intro hb1 _ r hr
    exact hb1 r hr

theorem mergeKeys_inv {a : List ExtractedKey} (b : List ExtractedKey)
    (hnd : (keyTexts a).Nodup) : MergeInv a b (b.foldl phase2Step (phase1 a)) := by
  rw [phase1_eq_self hnd]
  have h := phase2_fold_inv b (mergeInv_init hnd)
  simpa using h

/-- Full characterization of `mergeKeys a b` when `a` has duplicate-free
key texts (as the orchestrator's accumulator always does): duplicate-free
sorted keys whose text set is the union, per-key file lists that are the
sorted union of the inputs' file lists, and metadata taken verbatim from
some input record with the same key. -/
theorem mergeKeys_char (a b : List ExtractedKey) (hnd : (keyTexts a).Nodup) :
    (keyTexts (mergeKeys a b)).Nodup ∧
    (mergeKeys a b).Sorted keyLE ∧
    (∀ t, t ∈ keyTexts (mergeKeys a b) ↔ t ∈ keyTexts a ∨ t ∈ keyTexts b) ∧
    (∀ r ∈ mergeKeys a b, ∀ f, f ∈ r.files ↔ f ∈ filesFor r.key a ∨ f ∈ filesFor r.key b) ∧
    (∀ r ∈ mergeKeys a b, r.files.Sorted (· ≤ ·)) ∧
    (∀ r ∈ mergeKeys a b, ∃ r0, (r0 ∈ a ∨ r0 ∈ b) ∧ r0.key = r.key ∧ r0.message = r.message ∧
      r0.vars = r.vars ∧ r0.hasPlural = r.hasPlural ∧ r0.hasDate = r.hasDate) ∧
    ((∀ r ∈ a, r.files.Nodup) → (∀ r ∈ b, r.files.Nodup) →
      ∀ r ∈ mergeKeys a b, r.files.Nodup) := by
  have hinv := mergeKeys_inv b hnd
  have hperm : List.Perm (mergeKeys a b)
      ((b.foldl phase2Step (phase1 a)).map (fun k => { k with files := sortStrings k.files })) :=
    List.perm_insertionSort keyLE _
  have hkeq : keyTexts ((b.foldl phase2Step (phase1 a)).map
      (fun k => { k with files := sortStrings k.files })) =
      keyTexts (b.foldl phase2Step (phase1 a)) := by
    rw [keyTexts, keyTexts, List.map_map]
    apply List.map_congr_left
    intro r _
    rfl
  have hmemg : ∀ r ∈ mergeKeys a b, ∃ r0 ∈ b.foldl phase2Step (phase1 a),
      ({ r0 with files := sortStrings r0.files } : ExtractedKey) = r := by
    intro r hr
    obtain ⟨r0, hr0, heq⟩ := List.mem_map.mp (hperm.mem_iff.mp hr)
    exact ⟨r0, hr0, heq⟩
  have hkperm : List.Perm (keyTexts (mergeKeys a b))
      (keyTexts (b.foldl phase2Step (phase1 a))) := by
    rw [← hkeq]
    exact hperm.map _
  refine ⟨?_, ?_, ?_, ?_, ?_, ?_, ?_⟩
  · exact hkperm.nodup_iff.mpr hinv.nodup
  · show ((((b.foldl phase2Step (phase1 a)).map
        (fun k => { k with files := sortStrings k.files })).insertionSort keyLE)).Sorted keyLE
    exact List.sorted_insertionSort keyLE _
  · intro t
    rw [hkperm.mem_iff]
    exact hinv.mem_keys t
  · intro r hr f
    obtain ⟨r0, hr0, heq⟩ := hmemg r hr
    subst heq
    show f ∈ sortStrings r0.files ↔ f ∈ filesFor r0.key a ∨ f ∈ filesFor r0.key b
    rw [mem_sortStrings]
    exact hinv.files_mem r0 hr0 f
  · intro r hr
    obtain ⟨r0, _, heq⟩ := hmemg r hr
    subst heq
    show (sortStrings r0.files).Sorted (· ≤ ·)
    exact sorted_sortStrings _
  · intro r hr
    obtain ⟨r0, hr0, heq⟩ := hmemg r hr
    subst heq
    obtain ⟨r1, hr1, hk, hm, hv, hp, hd⟩ := hinv.meta_prov r0 hr0
    exact ⟨r1, hr1, hk, hm, hv, hp, hd⟩
  · intro hb1 hb2 r hr
    obtain ⟨r0, hr0, heq⟩ := hmemg r hr
    subst heq
    show (sortStrings r0.files).Nodup
    exact nodup_sortStrings (hinv.files_nodup hb1 hb2 r0 hr0)

/-- The file set recorded for a key text in `mergeKeys a b` is the union
of the file sets recorded in `a` and in `b`. -/
theorem filesFor_mergeKeys {a : List ExtractedKey} (b : List ExtractedKey)
    (hnd : (keyTexts a).Nodup) (t f : String) :
    f ∈ filesFor t (mergeKeys a b) ↔ f ∈ filesFor t a ∨ f ∈ filesFor t b := by
  obtain ⟨_, _, hmem, hfiles, _, _, _⟩ := mergeKeys_char a b hnd
  constructor
  · intro hf
    obtain ⟨r, hr, hk, hfr⟩ := mem_filesFor.mp hf
    subst hk
    exact (hfiles r hr f).mp hfr
  · intro hf
    have ht : t ∈ keyTexts (mergeKeys a b) := by
      apply (hmem t).mpr
      rcases hf with h | h
      · obtain ⟨r, hr, hk, _⟩ := mem_filesFor.mp h
        exact Or.inl (mem_keyTexts.mpr ⟨r, hr, hk⟩)
      · obtain ⟨r, hr, hk, _⟩ := mem_filesFor.mp h
        exact Or.inr (mem_keyTexts.mpr ⟨r, hr, hk⟩)
    obtain ⟨r, hr, hk⟩ := mem_keyTexts.mp ht
    subst hk
    exact mem_filesFor.mpr ⟨r, hr, rfl, (hfiles r hr f).mpr hf⟩

/-- **C8** (counterexample): `mergeKeys` is not associative over the
key-identity/file-union structure on arbitrary inputs. With `B` holding
two records for the same key `k` (files `f1` and `f2`), the grouping
`mergeKeys (mergeKeys [] B) []` keeps the union `{f1, f2}`, while
`mergeKeys [] (mergeKeys B [])` first collapses `B` through the
first-pass `Map.set` (last record wins, file lists not unioned) and loses
`f1`; the two associations also disagree with the claimed union of the
key's file lists across the inputs. -/
theorem merge_union_not_associative :
    ("f1" ∈ filesFor "k"
        (mergeKeys (mergeKeys [] [sampleKey "k" ["f1"], sampleKey "k" ["f2"]]) []) ∧
     "f1" ∉ filesFor "k"
        (mergeKeys [] (mergeKeys [sampleKey "k" ["f1"], sampleKey "k" ["f2"]] []))) := by
  decide

/-- **C8** (amended): when the first operands carry duplicate-free key
texts — as every `mergeKeys` output and every `extractFromCode` output
does — merge is associative over the key-identity/file-union structure:
both associations have the same key-text sets, and each association's
per-key file set is exactly the union of that key's file lists across
`A`, `B`, `C`. -/
theorem merge_union_law_nodup (A B C : List ExtractedKey)
    (hA : (keyTexts A).Nodup) (hB : (keyTexts B).Nodup) :
    (∀ t, t ∈ keyTexts (mergeKeys (mergeKeys A B) C) ↔
        t ∈ keyTexts (mergeKeys A (mergeKeys B C))) ∧
    (∀ t f, f ∈ filesFor t (mergeKeys (mergeKeys A B) C) ↔
        f ∈ filesFor t (A ++ B ++ C)) ∧
    (∀ t f, f ∈ filesFor t (mergeKeys A (mergeKeys B C)) ↔
        f ∈ filesFor t (A ++ B ++ C)) := by
  have hAB := mergeKeys_char A B hA
  have hBC := mergeKeys_char B C hB
  have hABnd : (keyTexts (mergeKeys A B)).Nodup := hAB.1
  have hL := mergeKeys_char (mergeKeys A B) C hABnd
  have hR := mergeKeys_char A (mergeKeys B C) hA
  have hsplit : ∀ t f : String, f ∈ filesFor t (A ++ B ++ C) ↔
      (f ∈ filesFor t A ∨ f ∈ filesFor t B) ∨ f ∈ filesFor t C := by
    intro t f
    rw [filesFor_append, filesFor_append]
    simp only [List.mem_append]
  refine ⟨?_, ?_, ?_⟩
  · intro t
    exact (hL.2.2.1 t).trans ((or_congr (hAB.2.2.1 t) Iff.rfl).trans
      (or_assoc.trans ((or_congr Iff.rfl (hBC.2.2.1 t).symm).trans (hR.2.2.1 t).symm)))
  · intro t f
    exact (filesFor_mergeKeys C hABnd t f).trans
      ((or_congr (filesFor_mergeKeys B hA t f) Iff.rfl).trans (hsplit t f).symm)
  · intro t f
    exact (filesFor_mergeKeys (mergeKeys B C) hA t f).trans
      ((or_congr Iff.rfl (filesFor_mergeKeys C hB t f)).trans
        (or_assoc.symm.trans (hsplit t f).symm))

theorem merge_union_law_nodup_witness :
    (keyTexts [sampleKey "a" ["f1"]]).Nodup ∧
    (keyTexts [sampleKey "b" ["f2"]]).Nodup ∧
    ("f1" ∈ filesFor "a"
        (mergeKeys (mergeKeys [sampleKey "a" ["f1"]] [sampleKey "b" ["f2"]]) []) ↔
     "f1" ∈ filesFor "a" ([sampleKey "a" ["f1"]] ++ [sampleKey "b" ["f2"]] ++ [])) :=
  ⟨by decide, by decide,
    (merge_union_law_nodup [sampleKey "a" ["f1"]] [sampleKey "b" ["f2"]] []
      (by decide) (by decide)).2.1 "a" "f1"⟩

theorem extractLoop_records {code filePath : String} :
    ∀ (ms : List (String × Nat)) (seen : List String) (r : ExtractedKey),
      r ∈ extractLoop code filePath ms seen → Coh r ∧ r.files = [filePath] := by
  intro ms
  induction ms with
  | nil =>
    intro seen r hr
    simp [extractLoop] at hr
  | cons m ms ih =>
    intro seen r hr
    obtain ⟨message, index⟩ := m
    rw [extractLoop] at hr
    by_cases h1 : message ∈ seen
    · rw [if_pos h1] at hr
      exact ih seen r hr
    · rw [if_neg h1] at hr
      by_cases h2 : message.length < 1 ∨ message.length > 5000
      · rw [if_pos h2] at hr
        exact ih _ r hr
      · rw [if_neg h2] at hr
        cases hv : validateMessageFormat message with
        | error e =>
          rw [hv] at hr
          exact ih _ r hr
        | ok u =>
          rw [hv] at hr
          rcases List.mem_cons.mp hr with heq | hm
          · subst heq
            exact ⟨⟨rfl, rfl, rfl, rfl⟩, rfl⟩
          · exact ih _ r hm

theorem extractFromCode_records {code filePath : String} {r : ExtractedKey}
    (hr : r ∈ extractFromCode code filePath) : Coh r ∧ r.files = [filePath] :=
  extractLoop_records (scanCalls code.toList) [] r hr

theorem foldInv_init : FoldInv [] [] := by
  refine ⟨List.nodup_nil, List.sorted_nil, ?_, ?_, ?_, ?_, ?_⟩
  · intro t
    simp [keyTexts]
  · intro t f
    rw [filesFor_nil]
    simp
  · intro r hr
    simp at hr
  · intro r hr
    simp at hr
  · intro r hr
    simp at hr

theorem foldInv_step {L0 : List (List ExtractedKey)} {m : List ExtractedKey}
    (hinv : FoldInv L0 m) (l : List ExtractedKey)
    (hl : ∀ r ∈ l, Coh r ∧ r.files.Nodup) : FoldInv (L0 ++ [l]) (mergeKeys m l) := by
  have hc := mergeKeys_char m l hinv.nodup
  refine ⟨hc.1, hc.2.1, ?_, ?_, hc.2.2.2.2.1, ?_, ?_⟩
  · intro t
    refine (hc.2.2.1 t).trans ?_
    constructor
    · rintro (hm | hll)
      · obtain ⟨l0, hl0, ht⟩ := (hinv.mem_keys t).mp hm
        exact ⟨l0, List.mem_append.mpr (Or.inl hl0), ht⟩
      · exact ⟨l, List.mem_append.mpr (Or.inr (List.mem_singleton.mpr rfl)), hll⟩
    · rintro ⟨l0, hl0, ht⟩
      rcases List.mem_append.mp hl0 with h0 | h1
      · exact Or.inl ((hinv.mem_keys t).mpr ⟨l0, h0, ht⟩)
      · have he : l0 = l := List.mem_singleton.mp h1
        subst he
        exact Or.inr ht
  · intro t f
    refine (filesFor_mergeKeys l hinv.nodup t f).trans ?_
    constructor
    · rintro (hm | hll)
      · obtain ⟨l0, hl0, hf⟩ := (hinv.files t f).mp hm
        exact ⟨l0, List.mem_append.mpr (Or.inl hl0), hf⟩
      · exact ⟨l, List.mem_append.mpr (Or.inr (List.mem_singleton.mpr rfl)), hll⟩
    · rintro ⟨l0, hl0, hf⟩
      rcases List.mem_append.mp hl0 with h0 | h1
      · exact Or.inl ((hinv.files t f).mpr ⟨l0, h0, hf⟩)
      · have he : l0 = l := List.mem_singleton.mp h1
        subst he
        exact Or.inr hf
  · exact hc.2.2.2.2.2.2 hinv.files_nodup (fun r hr => (hl r hr).2)
  · intro r hr
    obtain ⟨r0, hr00, hk, hm', hv, hp, hd⟩ := hc.2.2.2.2.2.1 r hr
    have hcoh0 : Coh r0 := by
      rcases hr00 with h0 | h1
      · exact hinv.coh r0 h0
      · exact (hl r0 h1).1
    refine ⟨?_, ?_, ?_, ?_⟩
    · rw [← hm', hcoh0.1, hk]
    · rw [← hv, hcoh0.2.1, hk]
    · rw [← hp, hcoh0.2.2.1, hk]
    · rw [← hd, hcoh0.2.2.2, hk]

theorem foldMerge_fold_inv :
    ∀ (L : List (List ExtractedKey)) {L0 : List (List ExtractedKey)} {m : List ExtractedKey},
      FoldInv L0 m → (∀ l ∈ L, ∀ r ∈ l, Coh r ∧ r.files.Nodup) →
      FoldInv (L0 ++ L) (L.foldl mergeKeys m) := by
  intro L
  induction L with
  | nil =>
    intro L0 m hinv _
    simpa using hinv
  | cons l L ih =>
    intro L0 m hinv hL
    have hstep := foldInv_step hinv l (hL l (List.mem_cons_self _ _))
    have hrest := ih hstep (fun l0 hl0 => hL l0 (List.mem_cons_of_mem _ hl0))
    simpa [List.append_assoc] using hrest

theorem foldMerge_char (L : List (List ExtractedKey))
    (hL : ∀ l ∈ L, ∀ r ∈ l, Coh r ∧ r.files.Nodup) : FoldInv L (foldMerge L) := by
  have h := foldMerge_fold_inv L foldInv_init hL
  rw [foldMerge]
  simpa using h

/-- Two coherent key lists with the same key texts and the same per-record
file lists have identical observable content. -/
theorem obs_map_ext :
    ∀ {m1 m2 : List ExtractedKey}, keyTexts m1 = keyTexts m2 →
      (∀ r ∈ m1, Coh r) → (∀ r ∈ m2, Coh r) →
      (∀ r1 ∈ m1, ∀ r2 ∈ m2, r1.key = r2.key → r1.files = r2.files) →
      m1.map obs = m2.map obs := by
  intro m1
  induction m1 with
  | nil =>
    intro m2 hk _ _ _
    cases m2 with
    | nil => rfl
    | cons r2 t2 => simp [keyTexts] at hk
  | cons r1 t1 ih =>
    intro m2 hk hc1 hc2 hf
    cases m2 with
    | nil => simp [keyTexts] at hk
    | cons r2 t2 =>
      rw [keyTexts_cons, keyTexts_cons] at hk
      injection hk with hkey htl
      have c1 := hc1 r1 (List.mem_cons_self _ _)
      have c2 := hc2 r2 (List.mem_cons_self _ _)
      have hfe : r1.files = r2.files :=
        hf r1 (List.mem_cons_self _ _) r2 (List.mem_cons_self _ _) hkey
      have hobs : obs r1 = obs r2 := by
        rw [obs, obs, hfe, c1.1, c2.1, c1.2.1, c2.2.1, c1.2.2.1, c2.2.2.1,
          c1.2.2.2, c2.2.2.2, hkey]
      have hrest : t1.map obs = t2.map obs :=
        ih htl (fun r hr => hc1 r (List.mem_cons_of_mem _ hr))
          (fun r hr => hc2 r (List.mem_cons_of_mem _ hr))
          (fun ra hra rb hrb => hf ra (List.mem_cons_of_mem _ hra) rb
            (List.mem_cons_of_mem _ hrb))
      rw [List.map_cons, List.map_cons, hobs, hrest]

/-- Sortedness of the key texts of a `keyLE`-sorted record list. -/
theorem keyTexts_sorted {m : List ExtractedKey} (h : m.Sorted keyLE) :
    (keyTexts m).Sorted (· ≤ ·) :=
  List.Pairwise.map ExtractedKey.key (fun _ _ hab => hab) h

/-- Folding the per-file key lists through `mergeKeys` in any order yields
the same observable merged content (same records up to the unread line and
namespace fields). -/
theorem foldMerge_obs_perm {L1 L2 : List (List ExtractedKey)} (hperm : List.Perm L1 L2)
    (h1 : ∀ l ∈ L1, ∀ r ∈ l, Coh r ∧ r.files.Nodup) :
    (foldMerge L1).map obs = (foldMerge L2).map obs := by
  have h2 : ∀ l ∈ L2, ∀ r ∈ l, Coh r ∧ r.files.Nodup :=
    fun l hl => h1 l (hperm.mem_iff.mpr hl)
  have c1 := foldMerge_char L1 h1
  have c2 := foldMerge_char L2 h2
  have hmemswap : ∀ (P : List ExtractedKey → Prop),
      (∃ l ∈ L1, P l) ↔ ∃ l ∈ L2, P l := by
    intro P
    constructor
    · rintro ⟨l, hl, hP⟩
      exact ⟨l, hperm.mem_iff.mp hl, hP⟩
    · rintro ⟨l, hl, hP⟩
      exact ⟨l, hperm.mem_iff.mpr hl, hP⟩
  have hkeys : keyTexts (foldMerge L1) = keyTexts (foldMerge L2) :=
    sortedNodupExt (keyTexts_sorted c1.sorted) (keyTexts_sorted c2.sorted)
      c1.nodup c2.nodup
      (fun t => (c1.mem_keys t).trans
        ((hmemswap (fun l => t ∈ keyTexts l)).trans (c2.mem_keys t).symm))
  apply obs_map_ext hkeys c1.coh c2.coh
  intro r1 hr1 r2 hr2 hk
  have hmem : ∀ f, f ∈ r1.files ↔ f ∈ r2.files := by
    intro f
    have e1 : filesFor r1.key (foldMerge L1) = r1.files := filesFor_self c1.nodup hr1
    have e2 : filesFor r2.key (foldMerge L2) = r2.files := filesFor_self c2.nodup hr2
    calc f ∈ r1.files
        ↔ f ∈ filesFor r1.key (foldMerge L1) := by rw [e1]
      _ ↔ ∃ l ∈ L1, f ∈ filesFor r1.key l := c1.files r1.key f
      _ ↔ ∃ l ∈ L2, f ∈ filesFor r1.key l := hmemswap (fun l => f ∈ filesFor r1.key l)
      _ ↔ f ∈ filesFor r2.key (foldMerge L2) := by rw [hk]; exact (c2.files r2.key f).symm
      _ ↔ f ∈ r2.files := by rw [e2]
  exact sortedNodupExt (c1.files_sorted r1 hr1) (c2.files_sorted r2 hr2)
    (c1.files_nodup r1 hr1) (c2.files_nodup r2 hr2) hmem

theorem map_obs_filter {p : ExtractedKey → Bool} (hp : ∀ k, p k = p (obs k)) :
    ∀ {b1 b2 : List ExtractedKey}, b1.map obs = b2.map obs →
      (b1.filter p).map obs = (b2.filter p).map obs := by
  intro b1
  induction b1 with
  | nil =>
    intro b2 hb
    cases b2 with
    | nil => rfl
    | cons y ys => simp at hb
  | cons x xs ih =>
    intro b2 hb
    cases b2 with
    | nil => simp at hb
    | cons y ys =>
      rw [List.map_cons, List.map_cons] at hb
      injection hb with hxy htl
      have hpx : p x = p y := by rw [hp x, hp y, hxy]
      by_cases hc : p x = true
      · rw [List.filter_cons_of_pos hc, List.filter_cons_of_pos (by rw [← hpx]; exact hc),
          List.map_cons, List.map_cons, hxy, ih htl]
      · rw [List.filter_cons_of_neg hc, List.filter_cons_of_neg (by rw [← hpx]; exact hc)]
        exact ih htl

theorem map_obs_orderedInsert {a b : ExtractedKey} (hab : obs a = obs b) :
    ∀ {b1 b2 : List ExtractedKey}, b1.map obs = b2.map obs →
      (List.orderedInsert keyLE a b1).map obs = (List.orderedInsert keyLE b b2).map obs := by
  have hkab0 : (obs a).key = (obs b).key := congrArg ExtractedKey.key hab
  have hkab : a.key = b.key := hkab0
  intro b1
  induction b1 with
  | nil =>
    intro b2 hb
    cases b2 with
    | nil => simp [List.orderedInsert, hab]
    | cons y ys => simp at hb
  | cons x xs ih =>
    intro b2 hb
    cases b2 with
    | nil => simp at hb
    | cons y ys =>
      rw [List.map_cons, List.map_cons] at hb
      injection hb with hxy htl
      have hkxy0 : (obs x).key = (obs y).key := congrArg ExtractedKey.key hxy
      have hkxy : x.key = y.key := hkxy0
      have hkey : keyLE a x ↔ keyLE b y := by
        rw [keyLE, keyLE, hkab, hkxy]
      show ((if keyLE a x then a :: x :: xs else
          x :: List.orderedInsert keyLE a xs).map obs) =
        ((if keyLE b y then b :: y :: ys else y :: List.orderedInsert keyLE b ys).map obs)
      by_cases hc : keyLE a x
      · rw [if_pos hc, if_pos (hkey.mp hc), List.map_cons, List.map_cons, List.map_cons,
          List.map_cons, hab, hxy, htl]
      · rw [if_neg hc, if_neg (fun hc2 => hc (hkey.mpr hc2)), List.map_cons, List.map_cons,
          hxy, ih htl]

theorem map_obs_insertionSort :
    ∀ {b1 b2 : List ExtractedKey}, b1.map obs = b2.map obs →
      (b1.insertionSort keyLE).map obs = (b2.insertionSort keyLE).map obs := by
  intro b1
  induction b1 with
  | nil =>
    intro b2 hb
    cases b2 with
    | nil => rfl
    | cons y ys => simp at hb
  | cons x xs ih =>
    intro b2 hb
    cases b2 with
    | nil => simp at hb
    | cons y ys =>
      rw [List.map_cons, List.map_cons] at hb
      injection hb with hxy htl
      show (List.orderedInsert keyLE x (xs.insertionSort keyLE)).map obs =
        (List.orderedInsert keyLE y (ys.insertionSort keyLE)).map obs
      exact map_obs_orderedInsert hxy (ih htl)

theorem map_obs_renderKey (et : TranslationMap) (isSrc : Bool) :
    ∀ {b1 b2 : List ExtractedKey}, b1.map obs = b2.map obs →
      b1.map (renderKey et isSrc) = b2.map (renderKey et isSrc) := by
  intro b1 b2 hb
  have e1 : b1.map (renderKey et isSrc) = (b1.map obs).map (renderKey et isSrc) := by
    rw [List.map_map]
    apply List.map_congr_left
    intro k _
    rfl
  have e2 : b2.map (renderKey et isSrc) = (b2.map obs).map (renderKey et isSrc) := by
    rw [List.map_map]
    apply List.map_congr_left
    intro k _
    rfl
  rw [e1, e2, hb]

/-- `generateJS` reads each record only through `obs`: two key lists with
the same observable content render to the same text. -/
theorem generateJS_congr (rel : String → String) (et : TranslationMap) (header : String)
    (isSrc : Bool) {l1 l2 : List ExtractedKey} (h : l1.map obs = l2.map obs) :
    generateJS rel l1 et header isSrc = generateJS rel l2 et header isSrc := by
  have hlab : l1.map (fileLabel rel) = l2.map (fileLabel rel) := by
    have e1 : l1.map (fileLabel rel) = (l1.map obs).map (fileLabel rel) := by
      rw [List.map_map]
      apply List.map_congr_left
      intro k _
      rfl
    have e2 : l2.map (fileLabel rel) = (l2.map obs).map (fileLabel rel) := by
      rw [List.map_map]
      apply List.map_congr_left
      intro k _
      rfl
    rw [e1, e2, h]
  have hlabels : groupLabels rel l1 = groupLabels rel l2 := by
    rw [groupLabels, groupLabels, hlab]
  have hfun : ∀ lbl, String.join (((groupBucket rel l1 lbl).insertionSort keyLE).map
      (renderKey et isSrc)) = String.join (((groupBucket rel l2 lbl).insertionSort keyLE).map
      (renderKey et isSrc)) := by
    intro lbl
    have hbuck : (groupBucket rel l1 lbl).map obs = (groupBucket rel l2 lbl).map obs := by
      rw [groupBucket, groupBucket]
      refine map_obs_filter ?_ h
      intro k
      rfl
    rw [map_obs_renderKey et isSrc (map_obs_insertionSort hbuck)]
  have hmap : (sortStrings (groupLabels rel l2)).map (fun file =>
        "  /*\n   " ++ file ++ "\n  */\n" ++
          String.join (((groupBucket rel l1 file).insertionSort keyLE).map
            (renderKey et isSrc)) ++ "\n") =
      (sortStrings (groupLabels rel l2)).map (fun file =>
        "  /*\n   " ++ file ++ "\n  */\n" ++
          String.join (((groupBucket rel l2 file).insertionSort keyLE).map
            (renderKey et isSrc)) ++ "\n") :=
    List.map_congr_left (fun lbl _ => by rw [hfun lbl])
  show stripTrailingCommaBlank (header ++ lbraceStr ++ "\n" ++
      String.join ((sortStrings (groupLabels rel l1)).map (fun file =>
        "  /*\n   " ++ file ++ "\n  */\n" ++
          String.join (((groupBucket rel l1 file).insertionSort keyLE).map
            (renderKey et isSrc)) ++ "\n"))) ++ rbraceStr ++ ";\n" =
    stripTrailingCommaBlank (header ++ lbraceStr ++ "\n" ++
      String.join ((sortStrings (groupLabels rel l2)).map (fun file =>
        "  /*\n   " ++ file ++ "\n  */\n" ++
          String.join (((groupBucket rel l2 file).insertionSort keyLE).map
            (renderKey et isSrc)) ++ "\n"))) ++ rbraceStr ++ ";\n"
  rw [hlabels, hmap]

/-- **C1**: folding the per-file key lists through `mergeKeys` in any scan
order and rendering yields byte-identical catalog text — for every
permutation of the (source text, file path) list, the output of
`generateJS` on the merged key list is the same. -/
theorem merge_render_deterministic (rel : String → String) (et : TranslationMap)
    (header : String) (isSrc : Bool) (files1 files2 : List (String × String))
    (hperm : List.Perm files1 files2) :
    generateJS rel (foldMerge (files1.map (fun pr => extractFromCode pr.1 pr.2)))
        et header isSrc =
      generateJS rel (foldMerge (files2.map (fun pr => extractFromCode pr.1 pr.2)))
        et header isSrc := by
  apply generateJS_congr
  apply foldMerge_obs_perm (hperm.map _)
  intro l hl r hr
  obtain ⟨pr, hpr, hpe⟩ := List.mem_map.mp hl
  subst hpe
  obtain ⟨hcoh, hfiles⟩ := extractFromCode_records hr
  refine ⟨hcoh, ?_⟩
  rw [hfiles]
  exact List.nodup_singleton _

theorem merge_render_deterministic_witness :
    List.Perm [("t(`a`)", "fileA.vue"), ("t(`b`)", "fileB.vue")]
      [("t(`b`)", "fileB.vue"), ("t(`a`)", "fileA.vue")] ∧
    generateJS id (foldMerge ([("t(`a`)", "fileA.vue"), ("t(`b`)", "fileB.vue")].map
        (fun pr => extractFromCode pr.1 pr.2))) [] "export default " true =
      generateJS id (foldMerge ([("t(`b`)", "fileB.vue"), ("t(`a`)", "fileA.vue")].map
        (fun pr => extractFromCode pr.1 pr.2))) [] "export default " true :=
  ⟨List.Perm.swap _ _ _,
    merge_render_deterministic id [] "export default " true _ _ (List.Perm.swap _ _ _)⟩

/-! ### Heap-level frame property of mergeKeys (claim C10) -/

theorem mapSetH_mem_records {m : List HeapKey} {v r : HeapKey}
    (h : r ∈ mapSetH m v) : r = v ∨ r ∈ m := by
  rw [mapSetH] at h
  by_cases hmem : m.any (fun x => x.key = v.key) = true
  · rw [if_pos hmem] at h
    obtain ⟨r0, hr0, hfr⟩ := List.mem_map.mp h
    by_cases hk : r0.key = v.key
    · rw [if_pos hk] at hfr
      exact Or.inl hfr.symm
    · rw [if_neg hk] at hfr
      subst hfr
      exact Or.inr hr0
  · rw [if_neg hmem] at h
    rcases List.mem_append.mp h with hm | hv
    · exact Or.inr hm
    · exact Or.inl (List.mem_singleton.mp hv)

/-- Folding a step that only allocates (and keeps map refs above the
original store) preserves the original store's cells and the ref bound. -/
theorem foldl_store_inv {σ : Store} {step : Store × List HeapKey → HeapKey → Store × List HeapKey}
    (hstep : ∀ acc k, σ.length ≤ acc.1.length → (∀ i, i < σ.length → acc.1[i]? = σ[i]?) →
      (∀ r ∈ acc.2, σ.length ≤ r.filesRef) →
      σ.length ≤ (step acc k).1.length ∧
        (∀ i, i < σ.length → (step acc k).1[i]? = σ[i]?) ∧
        ∀ r ∈ (step acc k).2, σ.length ≤ r.filesRef) :
    ∀ (ks : List HeapKey) (acc : Store × List HeapKey),
      σ.length ≤ acc.1.length → (∀ i, i < σ.length → acc.1[i]? = σ[i]?) →
      (∀ r ∈ acc.2, σ.length ≤ r.filesRef) →
      σ.length ≤ (ks.foldl step acc).1.length ∧
        (∀ i, i < σ.length → (ks.foldl step acc).1[i]? = σ[i]?) ∧
        ∀ r ∈ (ks.foldl step acc).2, σ.length ≤ r.filesRef := by
  intro ks
  induction ks with
  | nil =>
    intro acc h1 h2 h3
    exact ⟨h1, h2, h3⟩
  | cons k ks ih =>
    intro acc h1 h2 h3
    obtain ⟨g1, g2, g3⟩ := hstep acc k h1 h2 h3
    exact ih (step acc k) g1 g2 g3

theorem phase1H_store_inv (σ : Store) (k1 : List HeapKey) :
    σ.length ≤ (phase1H σ k1).1.length ∧
      (∀ i, i < σ.length → (phase1H σ k1).1[i]? = σ[i]?) ∧
      ∀ r ∈ (phase1H σ k1).2, σ.length ≤ r.filesRef := by
  rw [phase1H]
  refine foldl_store_inv ?_ k1 (σ, []) (le_refl _) (fun i _ => rfl) ?_
  · intro acc k hlen hpre hrefs
    refine ⟨?_, ?_, ?_⟩
    · show σ.length ≤ (acc.1 ++ [readRef acc.1 k.filesRef]).length
      rw [List.length_append]
      omega
    · intro i hi
      show (acc.1 ++ [readRef acc.1 k.filesRef])[i]? = σ[i]?
      exact (List.getElem?_append_left (lt_of_lt_of_le hi hlen)).trans (hpre i hi)
    · intro r hr
      have hr2 : r ∈ mapSetH acc.2 { k with filesRef := acc.1.length } := hr
      rcases mapSetH_mem_records hr2 with heq | hm
      · subst heq
        exact hlen
      · exact hrefs r hm
  · intro r hr
    exact absurd hr (List.not_mem_nil r)

theorem phase2StepH_store_inv {σ : Store} (acc : Store × List HeapKey) (k : HeapKey)
    (hlen : σ.length ≤ acc.1.length)
    (hpre : ∀ i, i < σ.length → acc.1[i]? = σ[i]?)
    (hrefs : ∀ r ∈ acc.2, σ.length ≤ r.filesRef) :
    σ.length ≤ (phase2StepH acc k).1.length ∧
      (∀ i, i < σ.length → (phase2StepH acc k).1[i]? = σ[i]?) ∧
      ∀ r ∈ (phase2StepH acc k).2, σ.length ≤ r.filesRef := by
  cases hf : acc.2.find? (fun r => r.key = k.key) with
  | some existing =>
    have hstep : phase2StepH acc k =
        (acc.1 ++ [sortStrings (dedupFirst (readRef acc.1 existing.filesRef ++
            readRef acc.1 k.filesRef))],
          mapSetH acc.2 { existing with filesRef := acc.1.length }) := by
      rw [phase2StepH, hf]
      rfl
    rw [hstep]
    refine ⟨?_, ?_, ?_⟩
    · rw [List.length_append]
      omega
    · intro i hi
      exact (List.getElem?_append_left (lt_of_lt_of_le hi hlen)).trans (hpre i hi)
    · intro r hr
      rcases mapSetH_mem_records hr with heq | hm
      · subst heq
        exact hlen
      · exact hrefs r hm
  | none =>
    have hstep : phase2StepH acc k =
        (acc.1 ++ [readRef acc.1 k.filesRef],
          mapSetH acc.2 { k with filesRef := acc.1.length }) := by
      rw [phase2StepH, hf]
      rfl
    rw [hstep]
    refine ⟨?_, ?_, ?_⟩
    · rw [List.length_append]
      omega
    · intro i hi
      exact (List.getElem?_append_left (lt_of_lt_of_le hi hlen)).trans (hpre i hi)
    · intro r hr
      rcases mapSetH_mem_records hr with heq | hm
      · subst heq
        exact hlen
      · exact hrefs r hm

/-- The in-place `.sort()` writes of the third pass only touch cells the
merge itself allocated, so the original store's cells survive. -/
theorem phase3H_foldl_prefix {σ : Store} :
    ∀ (entries : List HeapKey) (st : Store) (out : List HeapKey),
      (∀ r ∈ entries, σ.length ≤ r.filesRef) →
      (∀ i, i < σ.length → st[i]? = σ[i]?) →
      ∀ i, i < σ.length →
        (entries.foldl (fun st k =>
          (writeRef st.1 k.filesRef (sortStrings (readRef st.1 k.filesRef)), st.2 ++ [k]))
          (st, out)).1[i]? = σ[i]? := by
  intro entries
  induction entries with
  | nil =>
    intro st out _ hpre i hi
    exact hpre i hi
  | cons k ks ih =>
    intro st out hrefs hpre i hi
    rw [List.foldl_cons]
    apply ih _ _ (fun r hr => hrefs r (List.mem_cons_of_mem _ hr))
    · intro j hj
      have hne : k.filesRef ≠ j :=
        Nat.ne_of_gt (lt_of_lt_of_le hj (hrefs k (List.mem_cons_self _ _)))
      exact (List.getElem?_set_ne hne).trans (hpre j hj)
    · exact hi

/-- **C10**: `mergeKeys` does not mutate its inputs. In the heap model
(where every record's `files` array is a store cell, record copies
allocate fresh cells, and the third pass's `.sort()` writes in place),
merging leaves every input record's files array with exactly its original
contents, for any well-formed store. -/
theorem merge_keys_no_input_mutation (σ : Store) (k1 k2 : List HeapKey)
    (hwf : ∀ rec ∈ k1 ++ k2, rec.filesRef < σ.length) :
    ∀ rec ∈ k1 ++ k2,
      readRef (mergeKeysHeap σ k1 k2).1 rec.filesRef = readRef σ rec.filesRef := by
  have h1 := phase1H_store_inv σ k1
  have h12 := foldl_store_inv (fun acc k hl hp hr => phase2StepH_store_inv acc k hl hp hr)
    k2 (phase1H σ k1) h1.1 h1.2.1 h1.2.2
  have hpre : ∀ i, i < σ.length →
      (phase3H (k2.foldl phase2StepH (phase1H σ k1))).1[i]? = σ[i]? := by
    intro i hi
    rw [phase3H]
    exact phase3H_foldl_prefix _ _ _ h12.2.2 h12.2.1 i hi
  intro rec hrec
  have hlt := hwf rec hrec
  have hst : (mergeKeysHeap σ k1 k2).1 =
      (phase3H (k2.foldl phase2StepH (phase1H σ k1))).1 := rfl
  rw [readRef, readRef, hst, hpre rec.filesRef hlt]

theorem merge_keys_no_input_mutation_witness :
    (∀ rec ∈ ([⟨"k", 0⟩] : List HeapKey) ++ ([⟨"k", 1⟩] : List HeapKey),
      rec.filesRef < ([["b", "a"], ["c"]] : Store).length) ∧
    (∀ rec ∈ ([⟨"k", 0⟩] : List HeapKey) ++ ([⟨"k", 1⟩] : List HeapKey),
      readRef (mergeKeysHeap [["b", "a"], ["c"]] [⟨"k", 0⟩] [⟨"k", 1⟩]).1 rec.filesRef =
        readRef ([["b", "a"], ["c"]] : Store) rec.filesRef) :=
  ⟨by decide, merge_keys_no_input_mutation _ _ _ (by decide)⟩

/-! ### Catalog reload round trip (claim C2) -/

theorem jsUnescape_cons_plain {c : Char} (h : ¬ c = backslashChar) :
    ∀ (l : List Char), jsUnescape (c :: l) = c :: jsUnescape l := by
  intro l
  cases l with
  | nil =>
    show (if c = backslashChar then [] else [c]) = c :: jsUnescape []
    rw [if_neg h]
    rfl
  | cons d rest =>
    rw [jsUnescape, if_neg h]

/-- Decoding one rendered chunk of `escapeString`: the escape pairs decode
to the original character, the stripped controls are simply gone. -/
theorem jsUnescape_chunk (c : Char) (l : List Char) :
    jsUnescape (specEscapeChar c ++ l) =
      (if isStrippedControl c ∧ c ≠ newlineChar ∧ c ≠ crChar ∧ c ≠ tabChar then []
       else [c]) ++ jsUnescape l := by
  by_cases h1 : c = backslashChar
  · subst h1
    rfl
  by_cases h2 : c = dquoteChar
  · subst h2
    rfl
  by_cases h3 : c = squoteChar
  · subst h3
    rfl
  by_cases h4 : c = newlineChar
  · subst h4
    rfl
  by_cases h5 : c = crChar
  · subst h5
    rfl
  by_cases h6 : c = tabChar
  · subst h6
    rfl
  by_cases h7 : isStrippedControl c = true
  · have hc : specEscapeChar c = [] := by
      rw [specEscapeChar, if_neg h1, if_neg h2, if_neg h3, if_neg h4, if_neg h5, if_neg h6,
        if_pos h7]
    rw [hc, if_pos ⟨h7, h4, h5, h6⟩]
    rfl
  · have hc : specEscapeChar c = [c] := by
      rw [specEscapeChar, if_neg h1, if_neg h2, if_neg h3, if_neg h4, if_neg h5, if_neg h6,
        if_neg h7]
    rw [hc, if_neg (fun hcontra => h7 hcontra.1)]
    show jsUnescape (c :: l) = c :: jsUnescape l
    exact jsUnescape_cons_plain h1 l

/-- Round trip: decoding the rendered form of a string recovers exactly
its non-stripped characters. -/
theorem jsUnescape_escapeList (cs : List Char) :
    jsUnescape (escapeList cs) = stripControl cs := by
  rw [escapeList_eq_flatMap, stripControl]
  induction cs with
  | nil => rfl
  | cons c cs ih =>
    rw [List.flatMap_cons, jsUnescape_chunk, ih]
    by_cases h : isStrippedControl c ∧ c ≠ newlineChar ∧ c ≠ crChar ∧ c ≠ tabChar
    · rw [if_pos h, List.filter_cons_of_neg (by simp [h.1, h.2.1, h.2.2.1, h.2.2.2])]
      rfl
    · rw [if_neg h, List.filter_cons_of_pos ?_]
      · rfl
      · simp only [Bool.not_eq_true', decide_eq_false_iff_not]
        exact h

/-- Stripped characters render to nothing, so rendering ignores them. -/
theorem flatMap_spec_stripControl (cs : List Char) :
    (stripControl cs).flatMap specEscapeChar = cs.flatMap specEscapeChar := by
  rw [stripControl]
  induction cs with
  | nil => rfl
  | cons c cs ih =>
    by_cases h : isStrippedControl c ∧ c ≠ newlineChar ∧ c ≠ crChar ∧ c ≠ tabChar
    · have hc : specEscapeChar c = [] := by
        have h1 : ¬ c = backslashChar := fun he => absurd (he ▸ h.1) (by decide)
        have h2 : ¬ c = dquoteChar := fun he => absurd (he ▸ h.1) (by decide)
        have h3 : ¬ c = squoteChar := fun he => absurd (he ▸ h.1) (by decide)
        rw [specEscapeChar, if_neg h1, if_neg h2, if_neg h3, if_neg h.2.1, if_neg h.2.2.1,
          if_neg h.2.2.2, if_pos h.1]
      rw [List.filter_cons_of_neg (by simp [h.1, h.2.1, h.2.2.1, h.2.2.2]), ih,
        List.flatMap_cons, hc]
      rfl
    · rw [List.filter_cons_of_pos ?_, List.flatMap_cons, List.flatMap_cons, ih]
      simp only [Bool.not_eq_true', decide_eq_false_iff_not]
      exact h

theorem escapeList_stripControl (cs : List Char) :
    escapeList (stripControl cs) = escapeList cs := by
  rw [escapeList_eq_flatMap, escapeList_eq_flatMap]
  exact flatMap_spec_stripControl cs

/-- The decoded catalog key of a record with no stripped control
characters in its key is that key itself. -/
theorem reload_key_clean {k0 : ExtractedKey}
    (hc : stripControl k0.key.toList = k0.key.toList) :
    String.mk (jsUnescape (escapeString k0.key).toList) = k0.key := by
  have h1 : (escapeString k0.key).toList = escapeList k0.key.toList := rfl
  rw [h1, jsUnescape_escapeList, hc]
  rfl

theorem lookupTr_reload :
    ∀ (ks : List ExtractedKey) (et : TranslationMap) (k : ExtractedKey), k ∈ ks →
      (∀ k0 ∈ ks, stripControl k0.key.toList = k0.key.toList) →
      lookupTr (reloadCatalog ks et false) k.key =
        some (String.mk (jsUnescape (valueText et false k).toList)) := by
  intro ks
  induction ks with
  | nil =>
    intro et k hk _
    simp at hk
  | cons k0 ks ih =>
    intro et k hk hclean
    have hkey0 : String.mk (jsUnescape (escapeString k0.key).toList) = k0.key :=
      reload_key_clean (hclean k0 (List.mem_cons_self _ _))
    rw [reloadCatalog, List.map_cons]
    by_cases he : k0.key = k.key
    · rw [lookupTr, List.find?_cons_of_pos _
        (by simp only [decide_eq_true_eq]; rw [hkey0]; exact he)]
      have hv : valueText et false k0 = valueText et false k := by
        show (match lookupTr et k0.key with
          | some v => if v = "" then "" else escapeString v
          | none => "") = (match lookupTr et k.key with
          | some v => if v = "" then "" else escapeString v
          | none => "")
        rw [he]
      show some (String.mk (jsUnescape (valueText et false k0).toList)) = _
      rw [hv]
    · rw [lookupTr, List.find?_cons_of_neg _
        (by simp only [decide_eq_true_eq]; rw [hkey0]; exact he)]
      have hks : k ∈ ks := by
        rcases List.mem_cons.mp hk with heq | hm
        · exact absurd (heq ▸ rfl) he
        · exact hm
      have := ih et k hks (fun r hr => hclean r (List.mem_cons_of_mem _ hr))
      rw [lookupTr] at this
      exact this

/-- Regenerating a clean-keyed record's value from the reloaded catalog
reproduces the previous rendered value exactly. -/
theorem valueText_reload {keys : List ExtractedKey} {et : TranslationMap} {k : ExtractedKey}
    (hk : k ∈ keys) (hclean : ∀ k0 ∈ keys, stripControl k0.key.toList = k0.key.toList) :
    valueText (reloadCatalog keys et false) false k = valueText et false k := by
  have hl := lookupTr_reload keys et k hk hclean
  show (match lookupTr (reloadCatalog keys et false) k.key with
    | some v => if v = "" then "" else escapeString v
    | none => "") = valueText et false k
  rw [hl]
  cases hw : lookupTr et k.key with
  | none =>
    have hv1 : valueText et false k = "" := by
      show (match lookupTr et k.key with
        | some v => if v = "" then "" else escapeString v
        | none => "") = ""
      rw [hw]
    rw [hv1]
    rfl
  | some val =>
    have hv1 : valueText et false k = if val = "" then "" else escapeString val := by
      show (match lookupTr et k.key with
        | some v => if v = "" then "" else escapeString v
        | none => "") = _
      rw [hw]
    rw [hv1]
    by_cases hemp : val = ""
    · rw [if_pos hemp]
      rfl
    · rw [if_neg hemp]
      have hju : jsUnescape (escapeString val).toList = stripControl val.toList :=
        jsUnescape_escapeList val.toList
      rw [hju]
      show (if String.mk (stripControl val.toList) = "" then ""
        else escapeString (String.mk (stripControl val.toList))) = escapeString val
      by_cases hstrip : String.mk (stripControl val.toList) = ""
      · rw [if_pos hstrip]
        have hnil : stripControl val.toList = [] := by
          have := congrArg String.toList hstrip
          simpa using this
        have he2 : escapeString val = "" := by
          show String.mk (escapeList val.toList) = ""
          rw [← escapeList_stripControl val.toList, hnil]
          rfl
        rw [he2]
      · rw [if_neg hstrip]
        show String.mk (escapeList (stripControl val.toList)) = escapeString val
        rw [escapeList_stripControl]
        rfl

/-- `generateJS` only consults the existing-translation mapping through
each listed record's rendered value. -/
theorem generateJS_et_congr (rel : String → String) {et1 et2 : TranslationMap}
    (header : String) (isSrc : Bool) (keys : List ExtractedKey)
    (h : ∀ k ∈ keys, valueText et1 isSrc k = valueText et2 isSrc k) :
    generateJS rel keys et1 header isSrc = generateJS rel keys et2 header isSrc := by
  have hrk : ∀ k ∈ keys, renderKey et1 isSrc k = renderKey et2 isSrc k := by
    intro k hk
    rw [renderKey, renderKey, h k hk]
  have hfun : ∀ lbl, String.join (((groupBucket rel keys lbl).insertionSort keyLE).map
      (renderKey et1 isSrc)) = String.join (((groupBucket rel keys lbl).insertionSort keyLE).map
      (renderKey et2 isSrc)) := by
    intro lbl
    have hmem : ∀ k ∈ (groupBucket rel keys lbl).insertionSort keyLE, k ∈ keys := by
      intro k hk
      have h1 : k ∈ groupBucket rel keys lbl :=
        (List.perm_insertionSort keyLE _).mem_iff.mp hk
      rw [groupBucket] at h1
      exact List.mem_of_mem_filter h1
    rw [List.map_congr_left (fun k hk => hrk k (hmem k hk))]
  show stripTrailingCommaBlank (header ++ lbraceStr ++ "\n" ++
      String.join ((sortStrings (groupLabels rel keys)).map (fun file =>
        "  /*\n   " ++ file ++ "\n  */\n" ++
          String.join (((groupBucket rel keys file).insertionSort keyLE).map
            (renderKey et1 isSrc)) ++ "\n"))) ++ rbraceStr ++ ";\n" =
    stripTrailingCommaBlank (header ++ lbraceStr ++ "\n" ++
      String.join ((sortStrings (groupLabels rel keys)).map (fun file =>
        "  /*\n   " ++ file ++ "\n  */\n" ++
          String.join (((groupBucket rel keys file).insertionSort keyLE).map
            (renderKey et2 isSrc)) ++ "\n"))) ++ rbraceStr ++ ";\n"
  rw [List.map_congr_left (fun lbl _ => by rw [hfun lbl])]

/-- **C2** (counterexample): regeneration is not idempotent for a key
containing a stripped control character. The first run renders the key
with the control character removed, so the reloaded catalog no longer
holds an entry for the extracted key; the second (non-source-locale) run
renders an empty value where the first rendered the translation, the
contents differ, and `shouldWriteFile` reports a write instead of a skip. -/
theorem regen_not_idempotent_control_char :
    (generateJS id ctrlKeys (reloadCatalog ctrlKeys ctrlEt false) "export default " false ≠
      generateJS id ctrlKeys ctrlEt "export default " false) ∧
    shouldWriteFile (some (generateJS id ctrlKeys ctrlEt "export default " false))
      (generateJS id ctrlKeys (reloadCatalog ctrlKeys ctrlEt false)
        "export default " false) = true := by
  decide

/-- **C2** (amended): for key sets whose key texts contain no stripped
control characters (0x00–0x1F other than newline/carriage-return/tab, and
0x7F), regenerating from the reloaded previous output is byte-identical
and the byte-for-byte comparison of `shouldWriteFile` skips the write. -/
theorem regen_idempotent_clean_keys (rel : String → String) (keys : List ExtractedKey)
    (et : TranslationMap) (header : String)
    (hclean : ∀ k ∈ keys, stripControl k.key.toList = k.key.toList) :
    generateJS rel keys (reloadCatalog keys et false) header false =
        generateJS rel keys et header false ∧
      shouldWriteFile (some (generateJS rel keys et header false))
        (generateJS rel keys (reloadCatalog keys et false) header false) = false := by
  have heq : generateJS rel keys (reloadCatalog keys et false) header false =
      generateJS rel keys et header false := by
    apply generateJS_et_congr
    intro k hk
    exact valueText_reload hk hclean
  refine ⟨heq, ?_⟩
  rw [shouldWriteFile, heq]
  simp

theorem regen_idempotent_clean_keys_witness :
    (∀ k ∈ [sampleKey "ab" ["f.vue"]], stripControl k.key.toList = k.key.toList) ∧
    shouldWriteFile
      (some (generateJS id [sampleKey "ab" ["f.vue"]] [("ab", "X")] "export default " false))
      (generateJS id [sampleKey "ab" ["f.vue"]]
        (reloadCatalog [sampleKey "ab" ["f.vue"]] [("ab", "X")] false)
        "export default " false) = false :=
  ⟨by decide,
    (regen_idempotent_clean_keys id [sampleKey "ab" ["f.vue"]] [("ab", "X")]
      "export default " (by decide)).2⟩

end VueI18n
